import Mathlib

/-!
Verification of the topic-navigation and streaming-content core of the
infinite-canva repository.

The embedding follows the source files:
  * the navigation-tree hook (TopicNode, TopicHistoryState, addTopic,
    navigateToNode, getNodePath, updateNodeContent, clearHistory),
  * App.tsx (createFallbackArt, the generation effect with its cancellation
    flag, the card fold, the cache-commit effect, handleRandom),
  * services openRouterService.ts (the streaming transport and the
    content-card event loop).

JavaScript objects keyed by node id are embedded as association lists with
the object-spread update semantics (replace in place if the key exists,
append otherwise).  JavaScript strings are embedded as Lean strings and the
few string operations the code uses (split, slice, substring, toLowerCase,
startsWith, length) are defined over the codepoint list so that every
definition evaluates inside the kernel.  The unbounded while loop of
getNodePath is given fuel equal to the number of nodes, which strictly
exceeds the number of loop iterations in every state reachable by the
operations proved about below.
-/

/-- One rendered content section, from openRouterService CardData. -/
structure CardData where
  title : String
  content : String
deriving DecidableEq, Repr

/-- Result of ASCII art generation, from openRouterService AsciiArtData. -/
structure AsciiArtData where
  art : String
  text : Option String := none
deriving DecidableEq, Repr

/-- One explored topic instance, from the navigation-tree hook. -/
structure TopicNode where
  id : String
  topic : String
  timestamp : Nat
  parentId : Option String
  children : List String
  cachedCards : Option (List CardData) := none
  cachedAsciiArt : Option AsciiArtData := none
  generationTime : Option Nat := none
  totalInputWords : Option Nat := none
  totalOutputWords : Option Nat := none
deriving DecidableEq, Repr

/-- The session navigation state, from the navigation-tree hook. -/
structure TopicHistoryState where
  nodes : List (String × TopicNode)
  currentNodeId : Option String
  rootNodeIds : List String
deriving DecidableEq, Repr

/-- The empty state the hook starts from when nothing is persisted. -/
def emptyHistory : TopicHistoryState :=
  { nodes := [], currentNodeId := none, rootNodeIds := [] }

/-- Lookup of a JavaScript object property: first binding of the key. -/
def lookupNode : List (String × TopicNode) → String → Option TopicNode
  | [], _ => none
  | (k, n) :: rest, q => if k = q then some n else lookupNode rest q

/-- Object-spread update: replace the first binding of the key in place,
append a fresh binding at the end when the key is absent. -/
def setNode : List (String × TopicNode) → String → TopicNode → List (String × TopicNode)
  | [], k, v => [(k, v)]
  | (k', v') :: rest, k, v =>
    if k' = k then (k, v) :: rest else (k', v') :: setNode rest k v

/-- Keys of the node map, in insertion order. -/
abbrev nodeKeys (nodes : List (String × TopicNode)) : List String :=
  nodes.map Prod.fst

/-- Node id produced by addTopic: the topic string, a dash, and the decimal
creation timestamp. -/
def mkNodeId (topic : String) (now : Nat) : String :=
  topic ++ "-" ++ Nat.repr now

/-- The node record addTopic constructs. -/
def newTopicNode (topic : String) (parentId : Option String) (now : Nat) : TopicNode :=
  { id := mkNodeId topic now, topic := topic, timestamp := now, parentId := parentId,
    children := [] }

/-- addTopic from the navigation-tree hook.  The timestamp argument stands
for the millisecond clock reading the source takes at the call.  The parent
lookup happens after the new node is inserted and is guarded by JavaScript
truthiness, so an empty-string parent id is treated like a missing parent. -/
def addTopic (s : TopicHistoryState) (topic : String) (parentId : Option String)
    (now : Nat) : TopicHistoryState × String :=
  let nodeId := mkNodeId topic now
  let newNode : TopicNode := newTopicNode topic parentId now
  let newNodes := setNode s.nodes nodeId newNode
  let newNodes2 :=
    match parentId with
    | none => newNodes
    | some p =>
      if p = "" then newNodes
      else
        match lookupNode newNodes p with
        | none => newNodes
        | some pn => setNode newNodes p { pn with children := pn.children ++ [nodeId] }
  let newRoots :=
    match parentId with
    | none => s.rootNodeIds ++ [nodeId]
    | some _ => s.rootNodeIds
  ({ nodes := newNodes2, currentNodeId := some nodeId, rootNodeIds := newRoots },
   nodeId)

/-- navigateToNode from the navigation-tree hook. -/
def navigateToNode (s : TopicHistoryState) (nodeId : String) : TopicHistoryState :=
  match lookupNode s.nodes nodeId with
  | some _ => { s with currentNodeId := some nodeId }
  | none => s

/-- getCurrentNode from the navigation-tree hook. -/
def getCurrentNode (s : TopicHistoryState) : Option TopicNode :=
  match s.currentNodeId with
  | some k => lookupNode s.nodes k
  | none => none

/-- Loop body of getNodePath: walk parent links, prepending each visited
node, and stop on a falsy or unknown current id.  The fuel argument bounds
the number of iterations of the source while loop. -/
def getNodePathAux (nodes : List (String × TopicNode)) :
    Nat → Option String → List TopicNode → List TopicNode
  | _, none, acc => acc
  | 0, some _, acc => acc
  | fuel + 1, some cid, acc =>
    if cid = "" then acc
    else
      match lookupNode nodes cid with
      | none => acc
      | some n => getNodePathAux nodes fuel n.parentId (n :: acc)

/-- getNodePath from the navigation-tree hook, with fuel covering every
reachable state. -/
def getNodePath (s : TopicHistoryState) (nodeId : String) : List TopicNode :=
  getNodePathAux s.nodes s.nodes.length (some nodeId) []

/-- Number of parent-link hops from a node to the end of its ancestor
chain, with the same fuel convention as getNodePath. -/
def nodeDepthAux (nodes : List (String × TopicNode)) : Nat → String → Nat
  | 0, _ => 0
  | fuel + 1, k =>
    match lookupNode nodes k with
    | none => 0
    | some n =>
      match n.parentId with
      | none => 0
      | some p => nodeDepthAux nodes fuel p + 1

/-- Depth of a node: zero for a root. -/
def nodeDepth (s : TopicHistoryState) (k : String) : Nat :=
  nodeDepthAux s.nodes s.nodes.length k

/-- Payload of updateNodeContent in the navigation-tree hook. -/
structure NodeContent where
  cards : Option (List CardData) := none
  asciiArt : Option AsciiArtData := none
  generationTime : Option Nat := none
  totalInputWords : Option Nat := none
  totalOutputWords : Option Nat := none
deriving DecidableEq, Repr

/-- updateNodeContent from the navigation-tree hook: overwrite the five
cache fields of the addressed node when it exists, no-op otherwise. -/
def updateNodeContent (s : TopicHistoryState) (nodeId : String)
    (content : NodeContent) : TopicHistoryState :=
  match lookupNode s.nodes nodeId with
  | none => s
  | some n =>
    { s with
      nodes := setNode s.nodes nodeId
        { n with
          cachedCards := content.cards,
          cachedAsciiArt := content.asciiArt,
          generationTime := content.generationTime,
          totalInputWords := content.totalInputWords,
          totalOutputWords := content.totalOutputWords } }

/-- clearHistory from the navigation-tree hook. -/
def clearHistory (_s : TopicHistoryState) : TopicHistoryState :=
  emptyHistory


/-! ### Association-list lemmas for the node map -/

theorem lookupNode_eq_none_iff (nodes : List (String × TopicNode)) (k : String) :
    lookupNode nodes k = none ↔ k ∉ nodeKeys nodes := by
  induction nodes with
  | nil => simp [lookupNode, nodeKeys]
  | cons hd tl ih =>
    obtain ⟨k', n'⟩ := hd
    by_cases h : k' = k
    · subst h
      simp [lookupNode, nodeKeys]
    · simp only [lookupNode, if_neg h, nodeKeys, List.map_cons, List.mem_cons]
      rw [ih]
      constructor
      · intro hn hc
        rcases hc with hc | hc
        · exact h hc.symm
        · exact hn hc
      · intro hn
        exact fun hc => hn (Or.inr hc)

theorem lookupNode_isSome_of_mem {nodes : List (String × TopicNode)} {k : String}
    (h : k ∈ nodeKeys nodes) : ∃ n, lookupNode nodes k = some n := by
  cases hl : lookupNode nodes k with
  | none => exact absurd ((lookupNode_eq_none_iff nodes k).1 hl) (by simpa using h)
  | some n => exact ⟨n, rfl⟩

theorem lookupNode_mem {nodes : List (String × TopicNode)} {k : String} {n : TopicNode}
    (h : lookupNode nodes k = some n) : (k, n) ∈ nodes := by
  induction nodes with
  | nil => simp [lookupNode] at h
  | cons hd tl ih =>
    obtain ⟨k', n'⟩ := hd
    by_cases hk : k' = k
    · subst hk
      simp [lookupNode] at h
      subst h
      exact List.mem_cons_self _ _
    · simp only [lookupNode, if_neg hk] at h
      exact List.mem_cons_of_mem _ (ih h)

theorem mem_keys_of_mem {nodes : List (String × TopicNode)} {k : String} {n : TopicNode}
    (h : (k, n) ∈ nodes) : k ∈ nodeKeys nodes :=
  List.mem_map_of_mem Prod.fst h

theorem mem_lookupNode {nodes : List (String × TopicNode)} {k : String} {n : TopicNode}
    (hnd : (nodeKeys nodes).Nodup) (h : (k, n) ∈ nodes) : lookupNode nodes k = some n := by
  induction nodes with
  | nil => simp at h
  | cons hd tl ih =>
    obtain ⟨k', n'⟩ := hd
    have hnd' := List.nodup_cons.1 hnd
    rcases List.mem_cons.1 h with h | h
    · rw [Prod.mk.injEq] at h
      obtain ⟨h1, h2⟩ := h
      subst h1
      subst h2
      simp [lookupNode]
    · have hk : k' ≠ k := by
        intro he
        subst he
        exact hnd'.1 (mem_keys_of_mem h)
      simp only [lookupNode, if_neg hk]
      exact ih hnd'.2 h

theorem setNode_of_not_mem {nodes : List (String × TopicNode)} {k : String}
    (h : k ∉ nodeKeys nodes) (v : TopicNode) : setNode nodes k v = nodes ++ [(k, v)] := by
  induction nodes with
  | nil => simp [setNode]
  | cons hd tl ih =>
    obtain ⟨k', n'⟩ := hd
    simp only [nodeKeys, List.map_cons, List.mem_cons] at h
    push_neg at h
    simp [setNode, Ne.symm h.1, ih h.2]

theorem lookupNode_setNode_self (nodes : List (String × TopicNode)) (k : String)
    (v : TopicNode) : lookupNode (setNode nodes k v) k = some v := by
  induction nodes with
  | nil => simp [setNode, lookupNode]
  | cons hd tl ih =>
    obtain ⟨k', n'⟩ := hd
    by_cases h : k' = k
    · subst h
      simp [setNode, lookupNode]
    · simp only [setNode, if_neg h, lookupNode, if_neg h]
      exact ih

theorem lookupNode_setNode_ne (nodes : List (String × TopicNode)) {k q : String}
    (h : q ≠ k) (v : TopicNode) :
    lookupNode (setNode nodes k v) q = lookupNode nodes q := by
  induction nodes with
  | nil => simp [setNode, lookupNode, Ne.symm h]
  | cons hd tl ih =>
    obtain ⟨k', n'⟩ := hd
    by_cases hk : k' = k
    · subst hk
      simp only [setNode, if_pos rfl]
      simp only [lookupNode, if_neg (Ne.symm h)]
    · simp only [setNode, if_neg hk]
      by_cases hq : k' = q
      · simp only [lookupNode, if_pos hq]
      · simp only [lookupNode, if_neg hq]
        exact ih

theorem setNode_eq_self {nodes : List (String × TopicNode)} {k : String} {v : TopicNode}
    (h : lookupNode nodes k = some v) : setNode nodes k v = nodes := by
  induction nodes with
  | nil => simp [lookupNode] at h
  | cons hd tl ih =>
    obtain ⟨k', n'⟩ := hd
    by_cases hk : k' = k
    · subst hk
      simp [lookupNode] at h
      subst h
      simp [setNode]
    · simp only [lookupNode, if_neg hk] at h
      simp [setNode, hk, ih h]

theorem nodeKeys_setNode_of_mem {nodes : List (String × TopicNode)} {k : String}
    (h : k ∈ nodeKeys nodes) (v : TopicNode) :
    nodeKeys (setNode nodes k v) = nodeKeys nodes := by
  induction nodes with
  | nil => simp [nodeKeys] at h
  | cons hd tl ih =>
    obtain ⟨k', n'⟩ := hd
    by_cases hk : k' = k
    · subst hk
      simp [setNode, nodeKeys]
    · have h' : k ∈ nodeKeys tl := by
        rcases List.mem_cons.1 h with h1 | h1
        · exact absurd h1.symm hk
        · exact h1
      simp only [setNode, if_neg hk, nodeKeys, List.map_cons]
      exact congrArg (List.cons k') (ih h')

theorem mem_setNode_of_mem_ne {nodes : List (String × TopicNode)} {k k' : String}
    {n' : TopicNode} (h : (k', n') ∈ nodes) (hne : k' ≠ k) (v : TopicNode) :
    (k', n') ∈ setNode nodes k v := by
  induction nodes with
  | nil => simp at h
  | cons hd tl ih =>
    obtain ⟨k0, n0⟩ := hd
    by_cases hk0 : k0 = k
    · simp only [setNode, if_pos hk0]
      rcases List.mem_cons.1 h with h | h
      · exfalso
        apply hne
        rw [Prod.mk.injEq] at h
        rw [h.1, hk0]
      · exact List.mem_cons_of_mem _ h
    · simp only [setNode, if_neg hk0]
      rcases List.mem_cons.1 h with h | h
      · rw [h]
        exact List.mem_cons_self _ _
      · exact List.mem_cons_of_mem _ (ih h)

theorem mem_setNode_elim {nodes : List (String × TopicNode)} {k k' : String}
    {v n' : TopicNode} (hnd : (nodeKeys nodes).Nodup) (h : (k', n') ∈ setNode nodes k v) :
    (k' = k ∧ n' = v) ∨ ((k', n') ∈ nodes ∧ k' ≠ k) := by
  induction nodes with
  | nil =>
    simp only [setNode, List.mem_singleton] at h
    rw [Prod.mk.injEq] at h
    exact Or.inl h
  | cons hd tl ih =>
    obtain ⟨k0, n0⟩ := hd
    have hnd1 : k0 ∉ nodeKeys tl ∧ (nodeKeys tl).Nodup := List.nodup_cons.1 hnd
    by_cases hk0 : k0 = k
    · simp only [setNode, if_pos hk0] at h
      rcases List.mem_cons.1 h with h | h
      · rw [Prod.mk.injEq] at h
        exact Or.inl h
      · have hne : k' ≠ k := by
          intro he
          apply hnd1.1
          rw [hk0, ← he]
          exact mem_keys_of_mem h
        exact Or.inr ⟨List.mem_cons_of_mem _ h, hne⟩
    · simp only [setNode, if_neg hk0] at h
      rcases List.mem_cons.1 h with h | h
      · rw [Prod.mk.injEq] at h
        refine Or.inr ⟨List.mem_cons.2 (Or.inl ?_), ?_⟩
        · rw [Prod.mk.injEq]
          exact h
        · rw [h.1]
          exact hk0
      · rcases ih hnd1.2 h with h' | h'
        · exact Or.inl h'
        · exact Or.inr ⟨List.mem_cons_of_mem _ h'.1, h'.2⟩

theorem mem_setNode_iff {nodes : List (String × TopicNode)} {k : String}
    (hnd : (nodeKeys nodes).Nodup) (v : TopicNode) (k' : String) (n' : TopicNode) :
    (k', n') ∈ setNode nodes k v ↔ (k' = k ∧ n' = v) ∨ ((k', n') ∈ nodes ∧ k' ≠ k) := by
  constructor
  · exact mem_setNode_elim hnd
  · rintro (⟨rfl, rfl⟩ | ⟨h, hne⟩)
    · exact lookupNode_mem (lookupNode_setNode_self nodes k' n')
    · exact mem_setNode_of_mem_ne h hne v

theorem lookupNode_append (l1 l2 : List (String × TopicNode)) (k : String) :
    lookupNode (l1 ++ l2) k =
      match lookupNode l1 k with
      | some v => some v
      | none => lookupNode l2 k := by
  induction l1 with
  | nil => simp [lookupNode]
  | cons hd tl ih =>
    obtain ⟨k', n'⟩ := hd
    by_cases h : k' = k <;> simp [lookupNode, h, ih]

/-! ### Well-formedness of the navigation tree -/

/-- Position of the first occurrence of a key in a key list. -/
def keyIdx : List String → String → Nat
  | [], _ => 0
  | k :: rest, q => if k = q then 0 else keyIdx rest q + 1

theorem keyIdx_lt_length {l : List String} {q : String} (h : q ∈ l) :
    keyIdx l q < l.length := by
  induction l with
  | nil => simp at h
  | cons k rest ih =>
    by_cases hk : k = q
    · simp [keyIdx, hk]
    · rcases List.mem_cons.1 h with h | h
      · exact absurd h.symm hk
      · simp only [keyIdx, if_neg hk, List.length_cons]
        exact Nat.succ_lt_succ (ih h)

theorem keyIdx_append_left {l1 : List String} {q : String} (h : q ∈ l1) (l2 : List String) :
    keyIdx (l1 ++ l2) q = keyIdx l1 q := by
  induction l1 with
  | nil => simp at h
  | cons k rest ih =>
    by_cases hk : k = q
    · simp [keyIdx, hk]
    · rcases List.mem_cons.1 h with h | h
      · exact absurd h.symm hk
      · simp [keyIdx, hk, ih h]

theorem keyIdx_append_self {l1 : List String} {q : String} (h : q ∉ l1) :
    keyIdx (l1 ++ [q]) q = l1.length := by
  induction l1 with
  | nil => simp [keyIdx]
  | cons k rest ih =>
    have hk : k ≠ q := by
      intro he
      exact h (List.mem_cons.2 (Or.inl he.symm))
    have h' : q ∉ rest := fun hm => h (List.mem_cons_of_mem _ hm)
    simp only [List.cons_append, keyIdx, if_neg hk, List.length_cons]
    exact congrArg Nat.succ (ih h')

/-- Structural invariant of the navigation tree maintained by well-behaved
addTopic calls: keys are unique and nonempty and name the stored node ids,
every parent occurs strictly earlier in insertion order, a root id occurs
exactly once in the root list and in no children list, a child id occurs
exactly once in its parent children list and nowhere else, and children and
root lists point back to matching nodes. -/
structure TreeWF (s : TopicHistoryState) : Prop where
  keysNodup : (nodeKeys s.nodes).Nodup
  keyNe : ∀ k n, (k, n) ∈ s.nodes → k ≠ ""
  idEq : ∀ k n, (k, n) ∈ s.nodes → n.id = k
  parentEarlier : ∀ k n p, (k, n) ∈ s.nodes → n.parentId = some p →
    p ∈ nodeKeys s.nodes ∧ keyIdx (nodeKeys s.nodes) p < keyIdx (nodeKeys s.nodes) k
  rootCount : ∀ k n, (k, n) ∈ s.nodes → n.parentId = none →
    s.rootNodeIds.count k = 1 ∧ ∀ k' n', (k', n') ∈ s.nodes → n'.children.count k = 0
  childCount : ∀ k n p, (k, n) ∈ s.nodes → n.parentId = some p →
    (∃ m, lookupNode s.nodes p = some m ∧ m.children.count k = 1) ∧
      s.rootNodeIds.count k = 0 ∧
      ∀ k' n', (k', n') ∈ s.nodes → k' ≠ p → n'.children.count k = 0
  childrenValid : ∀ k n, (k, n) ∈ s.nodes → ∀ c ∈ n.children,
    ∃ m, lookupNode s.nodes c = some m ∧ m.parentId = some k
  rootsValid : ∀ r ∈ s.rootNodeIds, ∃ m, lookupNode s.nodes r = some m ∧ m.parentId = none

/-- Precondition of a well-behaved addTopic call: the generated id is fresh
and the requested parent is absent or already present. -/
def goodCall (s : TopicHistoryState) (topic : String) (parentId : Option String)
    (now : Nat) : Prop :=
  mkNodeId topic now ∉ nodeKeys s.nodes ∧
    (parentId = none ∨ ∃ p, parentId = some p ∧ p ∈ nodeKeys s.nodes)

/-- States reachable from the empty state by well-behaved addTopic calls. -/
inductive ReachableGood : TopicHistoryState → Prop
  | empty : ReachableGood emptyHistory
  | step {s : TopicHistoryState} (topic : String) (parentId : Option String) (now : Nat) :
      ReachableGood s → goodCall s topic parentId now →
      ReachableGood (addTopic s topic parentId now).1

theorem mkNodeId_ne_empty (topic : String) (now : Nat) : mkNodeId topic now ≠ "" := by
  intro h
  have h2 := congrArg String.data h
  rw [mkNodeId, String.data_append, String.data_append] at h2
  have h3 : ("" : String).data = [] := rfl
  have h4 : ("-" : String).data = ['-'] := rfl
  rw [h3, h4] at h2
  simp at h2

theorem treeWF_empty : TreeWF emptyHistory := by
  constructor <;> simp [emptyHistory, nodeKeys]

theorem lookupNode_append_left {nodes : List (String × TopicNode)} {r : String}
    {m : TopicNode} (h : lookupNode nodes r = some m) (l2 : List (String × TopicNode)) :
    lookupNode (nodes ++ l2) r = some m := by
  rw [lookupNode_append, h]

theorem lookupNode_append_fresh {nodes : List (String × TopicNode)} {r : String}
    (h : lookupNode nodes r = none) (m : TopicNode) :
    lookupNode (nodes ++ [(r, m)]) r = some m := by
  rw [lookupNode_append, h]
  simp [lookupNode]

theorem count_singleton_ne {a b : String} (h : b ≠ a) : List.count a [b] = 0 := by
  simp [List.count_cons, h]

theorem addTopic_root_eq (s : TopicHistoryState) (topic : String) (now : Nat)
    (hfresh : mkNodeId topic now ∉ nodeKeys s.nodes) :
    (addTopic s topic none now).1 =
      { nodes := s.nodes ++ [(mkNodeId topic now, newTopicNode topic none now)],
        currentNodeId := some (mkNodeId topic now),
        rootNodeIds := s.rootNodeIds ++ [mkNodeId topic now] } := by
  show ({ nodes := setNode s.nodes (mkNodeId topic now) (newTopicNode topic none now),
          currentNodeId := some (mkNodeId topic now),
          rootNodeIds := s.rootNodeIds ++ [mkNodeId topic now] } : TopicHistoryState) = _
  rw [setNode_of_not_mem hfresh]

theorem treeWF_addTopic_root {s : TopicHistoryState} (hwf : TreeWF s) (topic : String)
    (now : Nat) (hfresh : mkNodeId topic now ∉ nodeKeys s.nodes) :
    TreeWF (addTopic s topic none now).1 := by
  rw [addTopic_root_eq s topic now hfresh]
  have hlooknone : lookupNode s.nodes (mkNodeId topic now) = none :=
    (lookupNode_eq_none_iff _ _).2 hfresh
  have hkeys : nodeKeys (s.nodes ++ [(mkNodeId topic now, newTopicNode topic none now)]) =
      nodeKeys s.nodes ++ [mkNodeId topic now] := by
    simp [nodeKeys]
  have hmem : ∀ k n, (k, n) ∈ s.nodes ++ [(mkNodeId topic now, newTopicNode topic none now)] ↔
      (k, n) ∈ s.nodes ∨ (k = mkNodeId topic now ∧ n = newTopicNode topic none now) := by
    intro k n
    simp [Prod.mk.injEq]
  have hrootfresh : mkNodeId topic now ∉ s.rootNodeIds := by
    intro hr
    obtain ⟨m, hm, -⟩ := hwf.rootsValid _ hr
    exact hfresh (mem_keys_of_mem (lookupNode_mem hm))
  have hchildfresh : ∀ k' n', (k', n') ∈ s.nodes → n'.children.count (mkNodeId topic now) = 0 := by
    intro k' n' hm'
    refine List.count_eq_zero_of_not_mem ?_
    intro hc
    obtain ⟨m, hm, -⟩ := hwf.childrenValid _ _ hm' _ hc
    exact hfresh (mem_keys_of_mem (lookupNode_mem hm))
  refine ⟨?_, ?_, ?_, ?_, ?_, ?_, ?_, ?_⟩
  · rw [hkeys]
    refine List.Nodup.append hwf.keysNodup (List.nodup_singleton _) ?_
    intro a ha hb
    rw [List.mem_singleton] at hb
    subst hb
    exact hfresh ha
  · intro k n hm
    rcases (hmem k n).1 hm with h | ⟨h, -⟩
    · exact hwf.keyNe _ _ h
    · subst h
      exact mkNodeId_ne_empty topic now
  · intro k n hm
    rcases (hmem k n).1 hm with h | ⟨h1, h2⟩
    · exact hwf.idEq _ _ h
    · subst h1
      subst h2
      rfl
  · intro k n p hm hp
    rcases (hmem k n).1 hm with h | ⟨h1, h2⟩
    · obtain ⟨hpmem, hlt⟩ := hwf.parentEarlier _ _ _ h hp
      have hk : k ∈ nodeKeys s.nodes := mem_keys_of_mem h
      rw [hkeys]
      refine ⟨List.mem_append_left _ hpmem, ?_⟩
      rw [keyIdx_append_left hpmem, keyIdx_append_left hk]
      exact hlt
    · subst h2
      simp [newTopicNode] at hp
  · intro k n hm hroot
    rcases (hmem k n).1 hm with h | ⟨h1, h2⟩
    · obtain ⟨hc1, hc2⟩ := hwf.rootCount _ _ h hroot
      have hk : k ≠ mkNodeId topic now := by
        intro he
        exact hfresh (he ▸ mem_keys_of_mem h)
      constructor
      · rw [List.count_append, hc1, count_singleton_ne (Ne.symm hk)]
      · intro k' n' hm'
        rcases (hmem k' n').1 hm' with h' | ⟨h1', h2'⟩
        · exact hc2 _ _ h'
        · subst h2'
          simp [newTopicNode]
    · subst h1
      subst h2
      constructor
      · rw [List.count_append, List.count_eq_zero_of_not_mem hrootfresh]
        simp [List.count_cons]
      · intro k' n' hm'
        rcases (hmem k' n').1 hm' with h' | ⟨h1', h2'⟩
        · exact hchildfresh _ _ h'
        · subst h2'
          simp [newTopicNode]
  · intro k n p hm hp
    rcases (hmem k n).1 hm with h | ⟨h1, h2⟩
    · obtain ⟨⟨m, hlm, hcm⟩, hr0, hothers⟩ := hwf.childCount _ _ _ h hp
      have hk : k ≠ mkNodeId topic now := by
        intro he
        exact hfresh (he ▸ mem_keys_of_mem h)
      refine ⟨⟨m, lookupNode_append_left hlm _, hcm⟩, ?_, ?_⟩
      · rw [List.count_append, hr0, count_singleton_ne (Ne.symm hk)]
      · intro k' n' hm' hne
        rcases (hmem k' n').1 hm' with h' | ⟨h1', h2'⟩
        · exact hothers _ _ h' hne
        · subst h2'
          simp [newTopicNode]
    · subst h2
      simp [newTopicNode] at hp
  · intro k n hm c hc
    rcases (hmem k n).1 hm with h | ⟨h1, h2⟩
    · obtain ⟨m, hlm, hpm⟩ := hwf.childrenValid _ _ h _ hc
      exact ⟨m, lookupNode_append_left hlm _, hpm⟩
    · subst h2
      simp [newTopicNode] at hc
  · intro r hr
    rcases List.mem_append.1 hr with h | h
    · obtain ⟨m, hlm, hpm⟩ := hwf.rootsValid _ h
      exact ⟨m, lookupNode_append_left hlm _, hpm⟩
    · rw [List.mem_singleton] at h
      subst h
      exact ⟨newTopicNode topic none now, lookupNode_append_fresh hlooknone _, rfl⟩

theorem addTopic_child_eq (s : TopicHistoryState) (topic p : String) (now : Nat)
    (hp : ¬p = "") (pn : TopicNode)
    (hlook : lookupNode (setNode s.nodes (mkNodeId topic now)
      (newTopicNode topic (some p) now)) p = some pn) :
    (addTopic s topic (some p) now).1 =
      { nodes := setNode (setNode s.nodes (mkNodeId topic now)
            (newTopicNode topic (some p) now)) p
            { pn with children := pn.children ++ [mkNodeId topic now] },
        currentNodeId := some (mkNodeId topic now),
        rootNodeIds := s.rootNodeIds } := by
  unfold addTopic
  simp only [if_neg hp, hlook]

theorem children_count_fresh {s : TopicHistoryState} (hwf : TreeWF s) {x : String}
    (hfresh : x ∉ nodeKeys s.nodes) :
    ∀ k' n', (k', n') ∈ s.nodes → n'.children.count x = 0 := by
  intro k' n' hm'
  refine List.count_eq_zero_of_not_mem ?_
  intro hc
  obtain ⟨m, hm, -⟩ := hwf.childrenValid _ _ hm' _ hc
  exact hfresh (mem_keys_of_mem (lookupNode_mem hm))

theorem roots_count_fresh {s : TopicHistoryState} (hwf : TreeWF s) {x : String}
    (hfresh : x ∉ nodeKeys s.nodes) : s.rootNodeIds.count x = 0 := by
  refine List.count_eq_zero_of_not_mem ?_
  intro hr
  obtain ⟨m, hm, -⟩ := hwf.rootsValid _ hr
  exact hfresh (mem_keys_of_mem (lookupNode_mem hm))

theorem parent_ne_self {s : TopicHistoryState} (hwf : TreeWF s) {k q : String}
    {n : TopicNode} (hm : (k, n) ∈ s.nodes) (hq : n.parentId = some q) : q ≠ k := by
  intro he
  obtain ⟨-, hlt⟩ := hwf.parentEarlier _ _ _ hm hq
  rw [he] at hlt
  exact Nat.lt_irrefl _ hlt

theorem treeWF_addTopic_child {s : TopicHistoryState} (hwf : TreeWF s) (topic p : String)
    (now : Nat) (hfresh : mkNodeId topic now ∉ nodeKeys s.nodes)
    (hpmem : p ∈ nodeKeys s.nodes) :
    TreeWF (addTopic s topic (some p) now).1 := by
  obtain ⟨pn, hlookp⟩ := lookupNode_isSome_of_mem hpmem
  have hpmemnode : (p, pn) ∈ s.nodes := lookupNode_mem hlookp
  have hpne : p ≠ "" := hwf.keyNe p pn hpmemnode
  have hpnid : p ≠ mkNodeId topic now := fun he => hfresh (he ▸ hpmem)
  have hlooknone : lookupNode s.nodes (mkNodeId topic now) = none :=
    (lookupNode_eq_none_iff _ _).2 hfresh
  have hsetA : setNode s.nodes (mkNodeId topic now) (newTopicNode topic (some p) now) =
      s.nodes ++ [(mkNodeId topic now, newTopicNode topic (some p) now)] :=
    setNode_of_not_mem hfresh _
  have hlookAp : lookupNode (s.nodes ++ [(mkNodeId topic now, newTopicNode topic (some p) now)])
      p = some pn := lookupNode_append_left hlookp _
  have heq := addTopic_child_eq s topic p now hpne pn (by rw [hsetA]; exact hlookAp)
  rw [hsetA] at heq
  rw [heq]
  set nid := mkNodeId topic now with hnid
  set nn := newTopicNode topic (some p) now with hnn
  set pn' : TopicNode := { pn with children := pn.children ++ [nid] } with hpn'
  set nodesA := s.nodes ++ [(nid, nn)] with hnodesA
  have hkeysA : nodeKeys nodesA = nodeKeys s.nodes ++ [nid] := by
    simp [hnodesA, nodeKeys]
  have hndA : (nodeKeys nodesA).Nodup := by
    rw [hkeysA]
    refine List.Nodup.append hwf.keysNodup (List.nodup_singleton _) ?_
    intro a ha hb
    rw [List.mem_singleton] at hb
    subst hb
    exact hfresh ha
  have hmemA : ∀ k n, (k, n) ∈ nodesA ↔ (k, n) ∈ s.nodes ∨ (k = nid ∧ n = nn) := by
    intro k n
    simp [hnodesA, Prod.mk.injEq]
  have hpmemA : p ∈ nodeKeys nodesA := by
    rw [hkeysA]
    exact List.mem_append_left _ hpmem
  have hkeys2 : nodeKeys (setNode nodesA p pn') = nodeKeys nodesA :=
    nodeKeys_setNode_of_mem hpmemA pn'
  have hmem2 : ∀ k n, (k, n) ∈ setNode nodesA p pn' ↔
      (k = p ∧ n = pn') ∨ ((k, n) ∈ nodesA ∧ k ≠ p) := fun k n => mem_setNode_iff hndA pn' k n
  have hlookAnid : lookupNode nodesA nid = some nn := lookupNode_append_fresh hlooknone nn
  have hlookA : ∀ {q : String} {m : TopicNode}, lookupNode s.nodes q = some m →
      lookupNode nodesA q = some m := fun h => lookupNode_append_left h _
  have hlook2p : lookupNode (setNode nodesA p pn') p = some pn' :=
    lookupNode_setNode_self nodesA p pn'
  have hlook2 : ∀ {q : String}, q ≠ p →
      lookupNode (setNode nodesA p pn') q = lookupNode nodesA q :=
    fun hq => lookupNode_setNode_ne nodesA hq pn'
  have hkfresh : ∀ {k : String} {n : TopicNode}, (k, n) ∈ s.nodes → k ≠ nid :=
    fun hm he => hfresh (he ▸ mem_keys_of_mem hm)
  have hchildf := children_count_fresh hwf hfresh
  have hrootf := roots_count_fresh hwf hfresh
  have hpnparent : pn'.parentId = pn.parentId := rfl
  have hpnchildren : pn'.children = pn.children ++ [nid] := rfl
  have hpnid' : pn'.id = pn.id := rfl
  have hnnparent : nn.parentId = some p := rfl
  have hnnchildren : nn.children = [] := rfl
  have hnnid : nn.id = nid := rfl
  refine ⟨?_, ?_, ?_, ?_, ?_, ?_, ?_, ?_⟩
  · rw [hkeys2]
    exact hndA
  · intro k n hm
    rcases (hmem2 k n).1 hm with ⟨h1, -⟩ | ⟨h, -⟩
    · rw [h1]
      exact hpne
    · rcases (hmemA k n).1 h with h | ⟨h1, -⟩
      · exact hwf.keyNe _ _ h
      · rw [h1, hnid]
        exact mkNodeId_ne_empty topic now
  · intro k n hm
    rcases (hmem2 k n).1 hm with ⟨h1, h2⟩ | ⟨h, -⟩
    · rw [h1, h2, hpnid']
      exact hwf.idEq _ _ hpmemnode
    · rcases (hmemA k n).1 h with h | ⟨h1, h2⟩
      · exact hwf.idEq _ _ h
      · rw [h1, h2, hnnid]
  · intro k n q hm hq
    rw [hkeys2, hkeysA]
    rcases (hmem2 k n).1 hm with ⟨h1, h2⟩ | ⟨h, hkp⟩
    · rw [h2, hpnparent] at hq
      obtain ⟨hqmem, hlt⟩ := hwf.parentEarlier _ _ _ hpmemnode hq
      rw [h1]
      refine ⟨List.mem_append_left _ hqmem, ?_⟩
      rw [keyIdx_append_left hqmem, keyIdx_append_left hpmem]
      exact hlt
    · rcases (hmemA k n).1 h with h | ⟨h1, h2⟩
      · obtain ⟨hqmem, hlt⟩ := hwf.parentEarlier _ _ _ h hq
        have hk : k ∈ nodeKeys s.nodes := mem_keys_of_mem h
        refine ⟨List.mem_append_left _ hqmem, ?_⟩
        rw [keyIdx_append_left hqmem, keyIdx_append_left hk]
        exact hlt
      · rw [h2, hnnparent] at hq
        have hqp : q = p := by
          injection hq.symm
        rw [h1, hqp]
        refine ⟨List.mem_append_left _ hpmem, ?_⟩
        rw [keyIdx_append_left hpmem, keyIdx_append_self hfresh]
        exact keyIdx_lt_length hpmem
  · intro k n hm hroot
    rcases (hmem2 k n).1 hm with ⟨h1, h2⟩ | ⟨h, hkp⟩
    · rw [h2, hpnparent] at hroot
      obtain ⟨hc1, hc2⟩ := hwf.rootCount _ _ hpmemnode hroot
      rw [h1]
      refine ⟨hc1, ?_⟩
      intro k' n' hm'
      rcases (hmem2 k' n').1 hm' with ⟨h1', h2'⟩ | ⟨h', hkp'⟩
      · rw [h2', hpnchildren, List.count_append, hc2 _ _ hpmemnode,
          count_singleton_ne (Ne.symm hpnid)]
      · rcases (hmemA k' n').1 h' with h' | ⟨h1', h2'⟩
        · exact hc2 _ _ h'
        · rw [h2', hnnchildren]
          rfl
    · rcases (hmemA k n).1 h with h | ⟨h1, h2⟩
      · obtain ⟨hc1, hc2⟩ := hwf.rootCount _ _ h hroot
        have hknid : k ≠ nid := hkfresh h
        refine ⟨hc1, ?_⟩
        intro k' n' hm'
        rcases (hmem2 k' n').1 hm' with ⟨h1', h2'⟩ | ⟨h', hkp'⟩
        · rw [h2', hpnchildren, List.count_append, hc2 _ _ hpmemnode,
            count_singleton_ne (Ne.symm hknid)]
        · rcases (hmemA k' n').1 h' with h' | ⟨h1', h2'⟩
          · exact hc2 _ _ h'
          · rw [h2', hnnchildren]
            rfl
      · rw [h2, hnnparent] at hroot
        cases hroot
  · intro k n q hm hq
    rcases (hmem2 k n).1 hm with ⟨h1, h2⟩ | ⟨h, hkp⟩
    · rw [h2, hpnparent] at hq
      obtain ⟨⟨m, hlm, hcm⟩, hr0, hothers⟩ := hwf.childCount _ _ _ hpmemnode hq
      have hqp : q ≠ p := parent_ne_self hwf hpmemnode hq
      rw [h1]
      refine ⟨⟨m, ?_, hcm⟩, hr0, ?_⟩
      · rw [hlook2 hqp]
        exact hlookA hlm
      · intro k' n' hm' hne
        rcases (hmem2 k' n').1 hm' with ⟨h1', h2'⟩ | ⟨h', hkp'⟩
        · rw [h2', hpnchildren, List.count_append,
            hothers _ _ hpmemnode (Ne.symm hqp), count_singleton_ne (Ne.symm hpnid)]
        · rcases (hmemA k' n').1 h' with h' | ⟨h1', h2'⟩
          · exact hothers _ _ h' hne
          · rw [h2', hnnchildren]
            rfl
    · rcases (hmemA k n).1 h with h | ⟨h1, h2⟩
      · obtain ⟨⟨m, hlm, hcm⟩, hr0, hothers⟩ := hwf.childCount _ _ _ h hq
        have hknid : k ≠ nid := hkfresh h
        by_cases hqp : q = p
        · have hmpn : m = pn := by
            rw [hqp, hlookp] at hlm
            injection hlm.symm
          rw [hqp]
          refine ⟨⟨pn', hlook2p, ?_⟩, hr0, ?_⟩
          · rw [hpnchildren, List.count_append, ← hmpn, hcm,
              count_singleton_ne (Ne.symm hknid)]
          · intro k' n' hm' hne
            rcases (hmem2 k' n').1 hm' with ⟨h1', h2'⟩ | ⟨h', hkp'⟩
            · exact absurd h1' hne
            · rcases (hmemA k' n').1 h' with h' | ⟨h1', h2'⟩
              · exact hothers _ _ h' (by rw [hqp]; exact hne)
              · rw [h2', hnnchildren]
                rfl
        · refine ⟨⟨m, ?_, hcm⟩, hr0, ?_⟩
          · rw [hlook2 hqp]
            exact hlookA hlm
          · intro k' n' hm' hne
            rcases (hmem2 k' n').1 hm' with ⟨h1', h2'⟩ | ⟨h', hkp'⟩
            · rw [h2', hpnchildren, List.count_append,
                hothers _ _ hpmemnode (fun he => hqp he.symm),
                count_singleton_ne (Ne.symm hknid)]
            · rcases (hmemA k' n').1 h' with h' | ⟨h1', h2'⟩
              · exact hothers _ _ h' hne
              · rw [h2', hnnchildren]
                rfl
      · rw [h2, hnnparent] at hq
        have hqp : q = p := by
          injection hq.symm
        rw [h1, hqp]
        refine ⟨⟨pn', hlook2p, ?_⟩, hrootf, ?_⟩
        · rw [hpnchildren, List.count_append, hchildf _ _ hpmemnode]
          simp [List.count_cons]
        · intro k' n' hm' hne
          rcases (hmem2 k' n').1 hm' with ⟨h1', h2'⟩ | ⟨h', hkp'⟩
          · exact absurd h1' hne
          · rcases (hmemA k' n').1 h' with h' | ⟨h1', h2'⟩
            · exact hchildf _ _ h'
            · rw [h2', hnnchildren]
              rfl
  · intro k n hm c hc
    rcases (hmem2 k n).1 hm with ⟨h1, h2⟩ | ⟨h, hkp⟩
    · rw [h2, hpnchildren] at hc
      rcases List.mem_append.1 hc with hc | hc
      · obtain ⟨m, hlc, hpc⟩ := hwf.childrenValid _ _ hpmemnode _ hc
        have hcp : c ≠ p := by
          intro he
          rw [he, hlookp] at hlc
          have hmpn : m = pn := by injection hlc.symm
          rw [hmpn] at hpc
          exact parent_ne_self hwf hpmemnode hpc rfl
        rw [h1]
        refine ⟨m, ?_, hpc⟩
        rw [hlook2 hcp]
        exact hlookA hlc
      · rw [List.mem_singleton] at hc
        rw [h1, hc]
        refine ⟨nn, ?_, hnnparent⟩
        rw [hlook2 (Ne.symm hpnid)]
        exact hlookAnid
    · rcases (hmemA k n).1 h with h | ⟨h1, h2⟩
      · obtain ⟨m, hlc, hpc⟩ := hwf.childrenValid _ _ h _ hc
        by_cases hcp : c = p
        · have hmpn : m = pn := by
            rw [hcp, hlookp] at hlc
            injection hlc.symm
          rw [hcp]
          refine ⟨pn', hlook2p, ?_⟩
          rw [hpnparent, ← hmpn]
          exact hpc
        · refine ⟨m, ?_, hpc⟩
          rw [hlook2 hcp]
          exact hlookA hlc
      · rw [h2, hnnchildren] at hc
        cases hc
  · intro r hr
    obtain ⟨m, hlm, hpm⟩ := hwf.rootsValid _ hr
    by_cases hrp : r = p
    · have hmpn : m = pn := by
        rw [hrp, hlookp] at hlm
        injection hlm.symm
      rw [hrp]
      refine ⟨pn', hlook2p, ?_⟩
      rw [hpnparent, ← hmpn]
      exact hpm
    · refine ⟨m, ?_, hpm⟩
      rw [hlook2 hrp]
      exact hlookA hlm

theorem treeWF_addTopic {s : TopicHistoryState} (hwf : TreeWF s) {topic : String}
    {parentId : Option String} {now : Nat} (hg : goodCall s topic parentId now) :
    TreeWF (addTopic s topic parentId now).1 := by
  obtain ⟨hfresh, hpar⟩ := hg
  rcases hpar with rfl | ⟨p, rfl, hpmem⟩
  · exact treeWF_addTopic_root hwf topic now hfresh
  · exact treeWF_addTopic_child hwf topic p now hfresh hpmem

theorem treeWF_reachable {s : TopicHistoryState} (h : ReachableGood s) : TreeWF s := by
  induction h with
  | empty => exact treeWF_empty
  | step topic parentId now hr hg ih => exact treeWF_addTopic ih hg

/-! ### The ancestor path -/

theorem head_append_left {α : Type} {l : List α} (h : l ≠ []) (l2 : List α) :
    (l ++ l2).head? = l.head? := by
  cases l with
  | nil => exact absurd rfl h
  | cons a t => rfl

theorem getLast_concat_eq {α : Type} (l : List α) (a : α) :
    (l ++ [a]).getLast? = some a :=
  List.getLast?_concat l

theorem getNodePathAux_none (nodes : List (String × TopicNode)) (fuel : Nat)
    (acc : List TopicNode) : getNodePathAux nodes fuel none acc = acc := by
  cases fuel <;> rfl

theorem getNodePathAux_spec {s : TopicHistoryState} (hwf : TreeWF s) :
    ∀ i k n, lookupNode s.nodes k = some n → keyIdx (nodeKeys s.nodes) k = i →
    ∀ fuel, i < fuel → ∀ acc,
      ∃ pth, getNodePathAux s.nodes fuel (some k) acc = pth ++ acc ∧ pth ≠ [] ∧
        (∀ h0 ∈ pth.head?, h0.parentId = none) ∧
        pth.getLast? = some n ∧
        pth.length = nodeDepthAux s.nodes fuel k + 1 := by
  intro i
  induction i using Nat.strong_induction_on with
  | _ i ih =>
    intro k n hlook hidx fuel hfuel acc
    have hkne : ¬k = "" := hwf.keyNe _ _ (lookupNode_mem hlook)
    cases fuel with
    | zero => omega
    | succ f =>
      have hstep : getNodePathAux s.nodes (f + 1) (some k) acc =
          getNodePathAux s.nodes f n.parentId (n :: acc) := by
        simp only [getNodePathAux, if_neg hkne, hlook]
      cases hp : n.parentId with
      | none =>
        refine ⟨[n], ?_, by simp, ?_, rfl, ?_⟩
        · rw [hstep, hp, getNodePathAux_none]
          rfl
        · intro h0 hh0
          simp at hh0
          subst hh0
          exact hp
        · simp only [nodeDepthAux, hlook, hp, List.length_singleton]
      | some q =>
        obtain ⟨hqmem, hlt⟩ := hwf.parentEarlier _ _ _ (lookupNode_mem hlook) hp
        obtain ⟨m, hlookq⟩ := lookupNode_isSome_of_mem hqmem
        rw [hidx] at hlt
        have hjf : keyIdx (nodeKeys s.nodes) q < f := by omega
        obtain ⟨p1, hpe, hpne', hphead, hplast, hplen⟩ :=
          ih _ hlt q m hlookq rfl f hjf (n :: acc)
        refine ⟨p1 ++ [n], ?_, by simp, ?_, ?_, ?_⟩
        · rw [hstep, hp, hpe, List.append_assoc]
          rfl
        · rw [head_append_left hpne']
          exact hphead
        · rw [getLast_concat_eq]
        · rw [List.length_append, hplen]
          simp only [nodeDepthAux, hlook, hp, List.length_singleton]

theorem sum_children_zero {nodes : List (String × TopicNode)} {k : String}
    (hzero : ∀ k' n', (k', n') ∈ nodes → n'.children.count k = 0) :
    (nodes.map fun kn => kn.2.children.count k).sum = 0 := by
  refine List.sum_eq_zero ?_
  intro x hx
  rw [List.mem_map] at hx
  obtain ⟨kn, hkn, hxe⟩ := hx
  rw [← hxe]
  exact hzero kn.1 kn.2 hkn

theorem sum_children_one {nodes : List (String × TopicNode)} {p k : String} {m : TopicNode}
    (hnd : (nodeKeys nodes).Nodup) (hl : lookupNode nodes p = some m)
    (hone : m.children.count k = 1)
    (hzero : ∀ k' n', (k', n') ∈ nodes → k' ≠ p → n'.children.count k = 0) :
    (nodes.map fun kn => kn.2.children.count k).sum = 1 := by
  induction nodes with
  | nil => simp [lookupNode] at hl
  | cons hd tl ih =>
    obtain ⟨k0, n0⟩ := hd
    have hnd' := List.nodup_cons.1 hnd
    by_cases h0 : k0 = p
    · simp only [lookupNode, if_pos h0] at hl
      have hn0 : n0 = m := by injection hl
      have htl : (tl.map fun kn => kn.2.children.count k).sum = 0 := by
        refine List.sum_eq_zero ?_
        intro x hx
        rw [List.mem_map] at hx
        obtain ⟨kn, hkn, hxe⟩ := hx
        have hknp : kn.1 ≠ p := by
          intro he
          have hmm : kn.1 ∈ nodeKeys tl := List.mem_map_of_mem Prod.fst hkn
          rw [he, ← h0] at hmm
          exact hnd'.1 hmm
        rw [← hxe]
        exact hzero kn.1 kn.2 (List.mem_cons_of_mem _ hkn) hknp
      rw [List.map_cons, List.sum_cons, hn0, hone, htl]
    · simp only [lookupNode, if_neg h0] at hl
      rw [List.map_cons, List.sum_cons, hzero k0 n0 (List.mem_cons_self _ _) h0,
        ih hnd'.2 hl (fun k' n' hm' => hzero k' n' (List.mem_cons_of_mem _ hm'))]

/-- C2 (amended): for all sequences of addTopic calls starting from the
empty state in which every call passes a parent id that is null or already
present and whose generated id is fresh, every node either is a root, or
its parentId names a present node whose children list holds the node id
exactly once; and each node id occurs exactly once in the union of all
children lists and the root-id list. -/
theorem C2_thm {s : TopicHistoryState} (hs : ReachableGood s) :
    ∀ k n, (k, n) ∈ s.nodes →
      (n.parentId = none ∨ ∃ p m, n.parentId = some p ∧
        lookupNode s.nodes p = some m ∧ m.children.count k = 1) ∧
      s.rootNodeIds.count k + (s.nodes.map fun kn => kn.2.children.count k).sum = 1 := by
  have hwf := treeWF_reachable hs
  intro k n hm
  cases hp : n.parentId with
  | none =>
    obtain ⟨hc1, hc2⟩ := hwf.rootCount _ _ hm hp
    refine ⟨Or.inl rfl, ?_⟩
    rw [hc1, sum_children_zero hc2]
  | some p =>
    obtain ⟨⟨m, hlm, hcm⟩, hr0, hothers⟩ := hwf.childCount _ _ _ hm hp
    refine ⟨Or.inr ⟨p, m, rfl, hlm, hcm⟩, ?_⟩
    rw [hr0, sum_children_one hwf.keysNodup hlm hcm hothers]

/-- C2 counterexample: a single addTopic call naming an absent parent
leaves the new node with a dangling parentId, absent from the root list and
from every children list, refuting the claim for arbitrary call sequences. -/
theorem C2_cex :
    (∃ n, lookupNode (addTopic emptyHistory "a" (some "x") 0).1.nodes "a-0" = some n ∧
      n.parentId = some "x") ∧
    lookupNode (addTopic emptyHistory "a" (some "x") 0).1.nodes "x" = none ∧
    (addTopic emptyHistory "a" (some "x") 0).1.rootNodeIds.count "a-0" = 0 ∧
    ((addTopic emptyHistory "a" (some "x") 0).1.nodes.map
      fun kn => kn.2.children.count "a-0").sum = 0 :=
  ⟨⟨newTopicNode "a" (some "x") 0, by decide, by decide⟩, by decide, by decide, by decide⟩

/-- C2 witness: the invariant instantiated on a concrete two-node tree. -/
theorem C2_wit :
    (addTopic (addTopic emptyHistory "a" none 0).1 "b" (some "a-0") 1).1.rootNodeIds.count
        "b-1" +
      ((addTopic (addTopic emptyHistory "a" none 0).1 "b" (some "a-0") 1).1.nodes.map
        fun kn => kn.2.children.count "b-1").sum = 1 := by
  have hr1 : ReachableGood (addTopic emptyHistory "a" none 0).1 :=
    ReachableGood.step "a" none 0 ReachableGood.empty ⟨by decide, Or.inl rfl⟩
  have hr2 : ReachableGood
      (addTopic (addTopic emptyHistory "a" none 0).1 "b" (some "a-0") 1).1 :=
    ReachableGood.step "b" (some "a-0") 1 hr1 ⟨by decide, Or.inr ⟨"a-0", rfl, by decide⟩⟩
  exact (C2_thm hr2 "b-1" (newTopicNode "b" (some "a-0") 1) (by decide)).2

/-- C1 (amended): for every node id present in a tree reachable by
well-behaved addTopic calls, getNodePath returns the ancestor chain in
root-to-leaf order: the sequence is nonempty, begins at a root node
(parentId none), ends at the node carrying the requested id, and has
length equal to the node depth plus one; for a root node it is the
single-element sequence holding that node. -/
theorem C1_thm {s : TopicHistoryState} (hs : ReachableGood s)
    {k : String} {n : TopicNode} (hlook : lookupNode s.nodes k = some n) :
    getNodePath s k ≠ [] ∧
    (∀ h0 ∈ (getNodePath s k).head?, h0.parentId = none) ∧
    (getNodePath s k).getLast? = some n ∧
    n.id = k ∧
    (getNodePath s k).length = nodeDepth s k + 1 ∧
    (n.parentId = none → getNodePath s k = [n]) := by
  have hwf := treeWF_reachable hs
  have hkmem : k ∈ nodeKeys s.nodes := mem_keys_of_mem (lookupNode_mem hlook)
  have hfuel : keyIdx (nodeKeys s.nodes) k < s.nodes.length := by
    have h1 := keyIdx_lt_length hkmem
    rwa [List.length_map] at h1
  obtain ⟨pth, hpe, hpne, hphead, hplast, hplen⟩ :=
    getNodePathAux_spec hwf _ k n hlook rfl s.nodes.length hfuel []
  have hgp : getNodePath s k = pth := by
    rw [getNodePath, hpe, List.append_nil]
  refine ⟨by rw [hgp]; exact hpne, by rw [hgp]; exact hphead, by rw [hgp]; exact hplast,
    hwf.idEq _ _ (lookupNode_mem hlook), by rw [hgp, hplen]; rfl, ?_⟩
  intro hroot
  have hkne : ¬k = "" := hwf.keyNe _ _ (lookupNode_mem hlook)
  obtain ⟨f, hf⟩ : ∃ f, s.nodes.length = f + 1 := by
    cases hlen : s.nodes.length with
    | zero =>
      rw [hlen] at hfuel
      omega
    | succ f => exact ⟨f, rfl⟩
  rw [getNodePath, hf]
  simp only [getNodePathAux, if_neg hkne, hlook, hroot, getNodePathAux_none]

/-- C1 counterexample: on a two-node chain the returned sequence begins at
the root and ends at the requested node id, so it does not begin at the
requested node id as the claim states. -/
theorem C1_cex :
    ((getNodePath (addTopic (addTopic emptyHistory "a" none 0).1 "b" (some "a-0") 1).1
      "b-1").map TopicNode.id = ["a-0", "b-1"]) ∧ ("a-0" : String) ≠ "b-1" :=
  ⟨by decide, by decide⟩

/-- C1 witness: the amended path property instantiated on a concrete
single-node tree. -/
theorem C1_wit :
    getNodePath (addTopic emptyHistory "a" none 0).1 "a-0" = [newTopicNode "a" none 0] := by
  have hr : ReachableGood (addTopic emptyHistory "a" none 0).1 :=
    ReachableGood.step "a" none 0 ReachableGood.empty ⟨by decide, Or.inl rfl⟩
  have hlook : lookupNode (addTopic emptyHistory "a" none 0).1.nodes "a-0" =
      some (newTopicNode "a" none 0) := by decide
  exact (C1_thm hr hlook).2.2.2.2.2 (by decide)

/-! ### Idempotence of updateNodeContent -/

theorem updateNodeContent_lookup_miss {s : TopicHistoryState} {nodeId : String}
    (h : lookupNode s.nodes nodeId = none) (content : NodeContent) :
    updateNodeContent s nodeId content = s := by
  rw [updateNodeContent, h]

/-- C5: for every state, node id and payload, applying updateNodeContent
twice with the same payload leaves the state, and in particular the cache
fields of the addressed node, identical to applying it once. -/
theorem C5_thm (s : TopicHistoryState) (nodeId : String) (content : NodeContent) :
    updateNodeContent (updateNodeContent s nodeId content) nodeId content =
      updateNodeContent s nodeId content := by
  cases hl : lookupNode s.nodes nodeId with
  | none =>
    rw [updateNodeContent_lookup_miss hl, updateNodeContent_lookup_miss hl]
  | some n =>
    have h1 : updateNodeContent s nodeId content =
        { s with
          nodes := setNode s.nodes nodeId
            { n with
              cachedCards := content.cards,
              cachedAsciiArt := content.asciiArt,
              generationTime := content.generationTime,
              totalInputWords := content.totalInputWords,
              totalOutputWords := content.totalOutputWords } } := by
      rw [updateNodeContent, hl]
    rw [h1]
    have h2 : lookupNode (setNode s.nodes nodeId
        { n with
          cachedCards := content.cards,
          cachedAsciiArt := content.asciiArt,
          generationTime := content.generationTime,
          totalInputWords := content.totalInputWords,
          totalOutputWords := content.totalOutputWords }) nodeId =
        some { n with
          cachedCards := content.cards,
          cachedAsciiArt := content.asciiArt,
          generationTime := content.generationTime,
          totalInputWords := content.totalInputWords,
          totalOutputWords := content.totalOutputWords } :=
      lookupNode_setNode_self _ _ _
    rw [updateNodeContent]
    simp only [h2, setNode_eq_self h2]

/-! ### Decimal ids are injective in the topic and the timestamp -/

/-- Big-endian decimal digit characters of a natural number, the list that
Nat.repr produces. -/
def decDigits (n : Nat) : List Char :=
  if h : n < 10 then [Nat.digitChar n]
  else decDigits (n / 10) ++ [Nat.digitChar (n % 10)]
termination_by n
decreasing_by exact Nat.div_lt_self (by omega) (by norm_num)

/-- One step of decimal parsing. -/
def decValStep (v : Nat) (c : Char) : Nat := v * 10 + (c.toNat - 48)

/-- Decimal parsing of a digit-character list. -/
def decVal (l : List Char) : Nat := l.foldl decValStep 0

theorem digitChar_toNat : ∀ m : Nat, m < 10 → (Nat.digitChar m).toNat - 48 = m := by decide

theorem digitChar_ne_dash : ∀ m : Nat, m < 10 → Nat.digitChar m ≠ '-' := by decide

theorem toDigitsCore_eq_decDigits :
    ∀ fuel n acc, n < fuel → Nat.toDigitsCore 10 fuel n acc = decDigits n ++ acc := by
  intro fuel
  induction fuel with
  | zero =>
    intro n acc h
    omega
  | succ f ih =>
    intro n acc h
    have hmod : n % 10 < 10 := Nat.mod_lt _ (by norm_num)
    have hdm := Nat.div_add_mod n 10
    simp only [Nat.toDigitsCore]
    by_cases h10 : n / 10 = 0
    · rw [if_pos h10]
      have hn10 : n < 10 := by omega
      rw [decDigits, dif_pos hn10, Nat.mod_eq_of_lt hn10]
      rfl
    · rw [if_neg h10]
      have hn : 0 < n := by omega
      have hlt : n / 10 < f := by
        have := Nat.div_lt_self hn (show 1 < 10 by norm_num)
        omega
      rw [ih (n / 10) _ hlt]
      have hge : ¬n < 10 := by
        intro hlt10
        exact h10 (Nat.div_eq_of_lt hlt10)
      conv_rhs => rw [decDigits, dif_neg hge]
      rw [List.append_assoc]
      rfl

theorem repr_data_eq_decDigits (n : Nat) : (Nat.repr n).data = decDigits n := by
  have h1 : (Nat.repr n).data = Nat.toDigitsCore 10 (n + 1) n [] := rfl
  rw [h1, toDigitsCore_eq_decDigits (n + 1) n [] (Nat.lt_succ_self _), List.append_nil]

theorem decDigits_ne_dash : ∀ n, ∀ c ∈ decDigits n, c ≠ '-' := by
  intro n
  induction n using Nat.strong_induction_on with
  | _ n ih =>
    intro c hc
    by_cases h : n < 10
    · rw [decDigits, dif_pos h] at hc
      rw [List.mem_singleton] at hc
      rw [hc]
      exact digitChar_ne_dash n h
    · rw [decDigits, dif_neg h] at hc
      rcases List.mem_append.1 hc with hc | hc
      · exact ih (n / 10) (Nat.div_lt_self (by omega) (by norm_num)) c hc
      · rw [List.mem_singleton] at hc
        rw [hc]
        exact digitChar_ne_dash _ (Nat.mod_lt _ (by norm_num))

theorem decVal_concat (l : List Char) (c : Char) :
    decVal (l ++ [c]) = decValStep (decVal l) c := by
  rw [decVal, List.foldl_append]
  rfl

theorem decVal_decDigits : ∀ n, decVal (decDigits n) = n := by
  intro n
  induction n using Nat.strong_induction_on with
  | _ n ih =>
    by_cases h : n < 10
    · rw [decDigits, dif_pos h]
      show decValStep 0 (Nat.digitChar n) = n
      rw [decValStep, digitChar_toNat n h]
      omega
    · rw [decDigits, dif_neg h, decVal_concat,
        ih (n / 10) (Nat.div_lt_self (by omega) (by norm_num)), decValStep,
        digitChar_toNat _ (Nat.mod_lt _ (by norm_num))]
      omega

theorem repr_inj_nat {n1 n2 : Nat} (h : Nat.repr n1 = Nat.repr n2) : n1 = n2 := by
  have hd := congrArg String.data h
  rw [repr_data_eq_decDigits, repr_data_eq_decDigits] at hd
  have := congrArg decVal hd
  rwa [decVal_decDigits, decVal_decDigits] at this

theorem append_dash_inj {a b d1 d2 : List Char}
    (hd1 : ∀ c ∈ d1, c ≠ '-') (hd2 : ∀ c ∈ d2, c ≠ '-')
    (h : a ++ '-' :: d1 = b ++ '-' :: d2) : a = b ∧ d1 = d2 := by
  induction a generalizing b with
  | nil =>
    cases b with
    | nil =>
      rw [List.nil_append, List.nil_append] at h
      injection h with h1 h2
      exact ⟨rfl, h2⟩
    | cons y ys =>
      rw [List.nil_append, List.cons_append] at h
      injection h with h1 h2
      exfalso
      apply hd1 '-' ?_ rfl
      rw [h2]
      exact List.mem_append_right _ (List.mem_cons_self _ _)
  | cons x xs ih =>
    cases b with
    | nil =>
      rw [List.nil_append, List.cons_append] at h
      injection h with h1 h2
      exfalso
      apply hd2 '-' ?_ rfl
      rw [← h2]
      exact List.mem_append_right _ (List.mem_cons_self _ _)
    | cons y ys =>
      rw [List.cons_append, List.cons_append] at h
      injection h with h1 h2
      obtain ⟨hxy, hdd⟩ := ih h2
      exact ⟨by rw [h1, hxy], hdd⟩

/-- C7 (amended): two addTopic calls receive the same node id exactly when
they pass the same topic string and observe the same millisecond clock
value; in particular two calls with the same topic inside one millisecond
collide, while calls differing in topic or timestamp get distinct ids. -/
theorem C7_thm (t1 t2 : String) (n1 n2 : Nat) :
    mkNodeId t1 n1 = mkNodeId t2 n2 ↔ t1 = t2 ∧ n1 = n2 := by
  constructor
  · intro h
    have hd := congrArg String.data h
    rw [mkNodeId, mkNodeId, String.data_append, String.data_append,
      String.data_append, String.data_append] at hd
    have hdash : ("-" : String).data = ['-'] := rfl
    rw [hdash, List.append_assoc, List.append_assoc] at hd
    have hd1 : ∀ c ∈ (Nat.repr n1).data, c ≠ '-' := by
      rw [repr_data_eq_decDigits]
      exact decDigits_ne_dash n1
    have hd2 : ∀ c ∈ (Nat.repr n2).data, c ≠ '-' := by
      rw [repr_data_eq_decDigits]
      exact decDigits_ne_dash n2
    obtain ⟨h1, h2⟩ := append_dash_inj hd1 hd2 hd
    exact ⟨String.ext h1, repr_inj_nat (String.ext h2)⟩
  · rintro ⟨rfl, rfl⟩
    rfl

/-- C7 counterexample: two addTopic calls with the same topic in the same
millisecond produce the same id, so the second call overwrites the first
node and duplicates the root-id entry instead of creating a fresh node. -/
theorem C7_cex :
    mkNodeId "a" 0 = mkNodeId "a" 0 ∧
    nodeKeys (addTopic (addTopic emptyHistory "a" none 0).1 "a" none 0).1.nodes = ["a-0"] ∧
    (addTopic (addTopic emptyHistory "a" none 0).1 "a" none 0).1.rootNodeIds =
      ["a-0", "a-0"] :=
  ⟨rfl, by decide, by decide⟩

/-! ### The ASCII art fallback box -/

/-- JavaScript string length, counted over the codepoint list. -/
def jsLength (s : String) : Nat := s.data.length

/-- JavaScript substring(0, n). -/
def jsSubstring (s : String) (n : Nat) : String := String.mk (s.data.take n)

/-- JavaScript repeat of the horizontal border character. -/
def dashRepeat (n : Nat) : String := String.mk (List.replicate n '─')

/-- createFallbackArt from App.tsx: a three-line box around the topic,
truncated to 17 characters plus three dots when longer than 20. -/
def createFallbackArt (topic : String) : AsciiArtData :=
  let displayableTopic :=
    if 20 < jsLength topic then jsSubstring topic 17 ++ "..." else topic
  let paddedTopic := " " ++ displayableTopic ++ " "
  let topBorder := "┌" ++ dashRepeat (jsLength paddedTopic) ++ "┐"
  let middle := "│" ++ paddedTopic ++ "│"
  let bottomBorder := "└" ++ dashRepeat (jsLength paddedTopic) ++ "┘"
  { art := topBorder ++ "\n" ++ middle ++ "\n" ++ bottomBorder }

/-- Outcome of the ASCII art flow of App.tsx for a finished transport: the
accumulated buffer on success, and on failure the catch handler swallows
the error and substitutes the fallback box. -/
def artResult (topic : String) (outcome : Except String (List String)) : AsciiArtData :=
  match outcome with
  | Except.ok chunks => { art := String.join chunks }
  | Except.error _ => createFallbackArt topic

theorem jsLength_append (a b : String) : jsLength (a ++ b) = jsLength a + jsLength b := by
  rw [jsLength, jsLength, jsLength, String.data_append, List.length_append]

theorem strAppend_assoc (a b c : String) : a ++ b ++ c = a ++ (b ++ c) :=
  String.ext (by simp [String.data_append])

/-- C6: a forced transport failure for the topic Hypertext yields exactly
the three-line box around the literal topic padded with single spaces, with
no exception reaching the caller; and for every topic longer than 20
characters the boxed text is the first 17 characters followed by the
three-dot ellipsis. -/
theorem C6_thm :
    (∀ e, artResult "Hypertext" (Except.error e) =
      { art := "┌───────────┐\n│ Hypertext │\n└───────────┘" }) ∧
    (∀ topic, 20 < jsLength topic →
      (createFallbackArt topic).art =
        "┌──────────────────────┐\n│ " ++ jsSubstring topic 17 ++
          "... │\n└──────────────────────┘") := by
  constructor
  · intro e
    show createFallbackArt "Hypertext" = _
    decide
  · intro topic h
    have hsub : jsLength (jsSubstring topic 17) = 17 := by
      rw [jsLength, jsSubstring]
      show (topic.data.take 17).length = 17
      rw [List.length_take]
      have h2 : 20 < topic.data.length := h
      omega
    have hP : jsLength (" " ++ (jsSubstring topic 17 ++ "...") ++ " ") = 22 := by
      rw [jsLength_append, jsLength_append, jsLength_append, hsub]
      decide
    have hpre : ("┌" ++ dashRepeat 22 ++ "┐" ++ "\n" ++ "│" ++ " " : String) =
        "┌──────────────────────┐\n│ " := by decide
    have hsuf : ("..." ++ " " ++ "│" ++ "\n" ++ ("└" ++ dashRepeat 22 ++ "┘") : String) =
        "... │\n└──────────────────────┘" := by decide
    show ("┌" ++ dashRepeat (jsLength (" " ++ (if 20 < jsLength topic then
        jsSubstring topic 17 ++ "..." else topic) ++ " ")) ++ "┐") ++ "\n" ++
        ("│" ++ (" " ++ (if 20 < jsLength topic then jsSubstring topic 17 ++ "..."
          else topic) ++ " ") ++ "│") ++ "\n" ++
        ("└" ++ dashRepeat (jsLength (" " ++ (if 20 < jsLength topic then
          jsSubstring topic 17 ++ "..." else topic) ++ " ")) ++ "┘") = _
    rw [if_pos h, hP, ← hpre, ← hsuf]
    simp only [strAppend_assoc]

/-- C6 witness: the truncation clause instantiated at a 21-character topic. -/
theorem C6_wit :
    (createFallbackArt "ABCDEFGHIJKLMNOPQRSTU").art =
      "┌──────────────────────┐\n│ ABCDEFGHIJKLMNOPQ... │\n└──────────────────────┘" := by
  have h := C6_thm.2 "ABCDEFGHIJKLMNOPQRSTU" (by decide)
  rw [h]
  decide

/-! ### The random-topic word list -/

/-- The curated word list from App.tsx, in source order. -/
def PREDEFINED_WORDS : List String := [
  "Balance", "Harmony", "Discord", "Unity", "Fragmentation", "Clarity", "Ambiguity",
  "Presence", "Absence", "Creation", "Destruction", "Light", "Shadow", "Beginning",
  "Ending", "Rising", "Falling", "Connection", "Isolation", "Hope", "Despair",
  "Order and chaos", "Light and shadow", "Sound and silence", "Form and formlessness",
  "Being and nonbeing", "Presence and absence", "Motion and stillness",
  "Unity and multiplicity", "Finite and infinite", "Sacred and profane",
  "Memory and forgetting", "Question and answer", "Search and discovery",
  "Journey and destination", "Dream and reality", "Time and eternity",
  "Self and other", "Known and unknown", "Spoken and unspoken", "Visible and invisible",
  "Zigzag", "Waves", "Spiral", "Bounce", "Slant", "Drip", "Stretch", "Squeeze",
  "Float", "Fall", "Spin", "Melt", "Rise", "Twist", "Explode", "Stack", "Mirror",
  "Echo", "Vibrate",
  "Gravity", "Friction", "Momentum", "Inertia", "Turbulence", "Pressure", "Tension",
  "Oscillate", "Fractal", "Quantum", "Entropy", "Vortex", "Resonance", "Equilibrium",
  "Centrifuge", "Elastic", "Viscous", "Refract", "Diffuse", "Cascade", "Levitate",
  "Magnetize", "Polarize", "Accelerate", "Compress", "Undulate",
  "Liminal", "Ephemeral", "Paradox", "Zeitgeist", "Metamorphosis", "Synesthesia",
  "Recursion", "Emergence", "Dialectic", "Apophenia", "Limbo", "Flux", "Sublime",
  "Uncanny", "Palimpsest", "Chimera", "Void", "Transcend", "Ineffable", "Qualia",
  "Gestalt", "Simulacra", "Abyssal",
  "Existential", "Nihilism", "Solipsism", "Phenomenology", "Hermeneutics",
  "Deconstruction", "Postmodern", "Absurdism", "Catharsis", "Epiphany", "Melancholy",
  "Nostalgia", "Longing", "Reverie", "Pathos", "Ethos", "Logos", "Mythos",
  "Anamnesis", "Intertextuality", "Metafiction", "Stream", "Lacuna", "Caesura",
  "Enjambment"]

/-- JavaScript Set construction over strings: keep the first occurrence of
every entry, preserving insertion order. -/
def dedupFirst (l : List String) : List String :=
  l.foldl (fun acc x => if x ∈ acc then acc else acc ++ [x]) []

/-- UNIQUE_WORDS from App.tsx. -/
def UNIQUE_WORDS : List String := dedupFirst PREDEFINED_WORDS

/-- JavaScript toLowerCase over the codepoint list; the ASCII mapping of
Char.toLower covers every entry of the curated list. -/
def jsToLower (s : String) : String := String.mk (s.data.map Char.toLower)

/-- The word selection of handleRandom in App.tsx, as a function of the
index drawn from the random source and the current topic. -/
def handleRandomWord (currentTopic : String) (randomIndex : Nat) : String :=
  let randomWord := UNIQUE_WORDS.getD randomIndex ""
  if jsToLower randomWord = jsToLower currentTopic then
    UNIQUE_WORDS.getD ((randomIndex + 1) % UNIQUE_WORDS.length) ""
  else randomWord

set_option maxRecDepth 4096 in
theorem unique_words_adjacent :
    ∀ i, i < UNIQUE_WORDS.length →
      jsToLower (UNIQUE_WORDS.getD ((i + 1) % UNIQUE_WORDS.length) "") ≠
        jsToLower (UNIQUE_WORDS.getD i "") := by decide

/-- C8: whenever the candidate drawn by the random action equals the
current topic case-insensitively, the next entry of the deduplicated word
list is selected instead, wrapping from the last entry to the first, and
the selected topic never equals the current topic case-insensitively. -/
theorem C8_thm (currentTopic : String) (i : Nat) (hi : i < UNIQUE_WORDS.length)
    (hdup : jsToLower (UNIQUE_WORDS.getD i "") = jsToLower currentTopic) :
    handleRandomWord currentTopic i =
      UNIQUE_WORDS.getD ((i + 1) % UNIQUE_WORDS.length) "" ∧
    jsToLower (handleRandomWord currentTopic i) ≠ jsToLower currentTopic := by
  have hsel : handleRandomWord currentTopic i =
      UNIQUE_WORDS.getD ((i + 1) % UNIQUE_WORDS.length) "" := by
    rw [handleRandomWord]
    simp only [if_pos hdup]
  refine ⟨hsel, ?_⟩
  rw [hsel, ← hdup]
  exact unique_words_adjacent i hi

set_option maxRecDepth 4096 in
/-- C8 witness: the replacement rule at index zero against a current topic
equal to the first entry up to case. -/
theorem C8_wit :
    handleRandomWord "balance" 0 =
      UNIQUE_WORDS.getD ((0 + 1) % UNIQUE_WORDS.length) "" ∧
    jsToLower (handleRandomWord "balance" 0) ≠ jsToLower "balance" :=
  C8_thm "balance" 0 (by decide) (by decide)

/-! ### The streaming transport -/

/-- JavaScript split on the newline character over the codepoint list: the
empty string splits into one empty string, and a trailing separator yields
a trailing empty string, as in JavaScript. -/
def splitNlChars : List Char → List String
  | [] => [""]
  | c :: rest =>
    if c = '\n' then "" :: splitNlChars rest
    else
      match splitNlChars rest with
      | [] => [String.mk [c]]
      | s :: ss => String.mk (c :: s.data) :: ss

/-- JavaScript split of a string on newlines. -/
def strSplitNl (s : String) : List String := splitNlChars s.data

/-- Kernel-evaluable prefix test over codepoint lists. -/
def strStartsWithData : List Char → List Char → Bool
  | [], _ => true
  | _ :: _, [] => false
  | p :: ps, c :: cs => p = c && strStartsWithData ps cs

/-- JavaScript startsWith. -/
def strStartsWith (s p : String) : Bool := strStartsWithData p.data s.data

/-- JavaScript slice(n). -/
def strDrop (s : String) (n : Nat) : String := String.mk (s.data.drop n)

/-- The for-loop over complete lines inside the read loop of the streaming
transport.  The parse argument is the oracle standing for JSON.parse plus
the extraction of the text delta at choices[0].delta.content: none models a
parse exception (the line is skipped after a warning), some none a parsed
frame without a string delta at that path, and some (some c) a parsed frame
with delta c, which is yielded only when truthy (nonempty).  Returns the
yielded fragments and whether the DONE sentinel ended the generator. -/
def processLines (parse : String → Option (Option String)) :
    List String → List String × Bool
  | [] => ([], false)
  | line :: rest =>
    if strStartsWith line "data: " then
      if strDrop line 6 = "[DONE]" then ([], true)
      else
        match parse (strDrop line 6) with
        | none => processLines parse rest
        | some none => processLines parse rest
        | some (some content) =>
          if content = "" then processLines parse rest
          else
            ((content :: (processLines parse rest).1), (processLines parse rest).2)
    else processLines parse rest

/-- The chunk read loop of makeOpenRouterStreamRequest: carry the
partial-line buffer across chunks, process the complete lines of each
chunk, and end the whole generator once a DONE sentinel was decoded.  The
trailing buffer left when the body ends is discarded, as in the source. -/
def streamLoop (parse : String → Option (Option String)) :
    List String → String → List String
  | [], _ => []
  | c :: rest, buffer =>
    if (processLines parse ((strSplitNl (buffer ++ c)).dropLast)).2 then
      (processLines parse ((strSplitNl (buffer ++ c)).dropLast)).1
    else
      (processLines parse ((strSplitNl (buffer ++ c)).dropLast)).1 ++
        streamLoop parse rest (((strSplitNl (buffer ++ c)).getLast?).getD "")

/-- Response model of the fetch call made by the transport. -/
structure HttpResponse where
  ok : Bool
  status : Nat
  errorText : String
  body : Option (List String)
deriving DecidableEq, Repr

/-- makeOpenRouterStreamRequest from openRouterService: a non-2xx response
or a missing body reader fails the whole request with a single error and no
fragment; otherwise the chunk loop produces the yielded fragments. -/
def makeOpenRouterStreamRequest (parse : String → Option (Option String))
    (resp : HttpResponse) : Except String (List String) :=
  if !resp.ok then
    Except.error ("OpenRouter API error: " ++ Nat.repr resp.status ++ " - " ++ resp.errorText)
  else
    match resp.body with
    | none => Except.error "No response body reader available"
    | some chunks => Except.ok (streamLoop parse chunks "")

/-- A line carrying the DONE sentinel. -/
def isDoneLine (l : String) : Prop :=
  strStartsWith l "data: " = true ∧ strDrop l 6 = "[DONE]"

instance (l : String) : Decidable (isDoneLine l) := by
  unfold isDoneLine
  infer_instance

theorem processLines_done (parse : String → Option (Option String)) :
    ∀ pre post, (∀ l ∈ pre, ¬isDoneLine l) →
      processLines parse (pre ++ "data: [DONE]" :: post) =
        ((processLines parse pre).1, true) := by
  intro pre
  induction pre with
  | nil =>
    intro post hno
    rfl
  | cons l pre' ih =>
    intro post hno
    have hl : ¬isDoneLine l := hno l (List.mem_cons_self _ _)
    have hno' : ∀ l' ∈ pre', ¬isDoneLine l' := fun l' hl' => hno l' (List.mem_cons_of_mem _ hl')
    rw [List.cons_append]
    cases hsw : strStartsWith l "data: " with
    | false =>
      simp only [processLines, hsw, Bool.false_eq_true, if_false]
      exact ih post hno'
    | true =>
      have hne : ¬strDrop l 6 = "[DONE]" := by
        intro he
        exact hl ⟨hsw, he⟩
      cases hparse : parse (strDrop l 6) with
      | none =>
        simp only [processLines, hsw, if_true, if_neg hne, hparse]
        exact ih post hno'
      | some c =>
        cases c with
        | none =>
          simp only [processLines, hsw, if_true, if_neg hne, hparse]
          exact ih post hno'
        | some content =>
          by_cases hc : content = ""
          · simp only [processLines, hsw, if_true, if_neg hne, hparse, if_pos hc]
            exact ih post hno'
          · simp only [processLines, hsw, if_true, if_neg hne, hparse, if_neg hc]
            rw [ih post hno']

/-- C9: the streaming transport fails a non-2xx response with a single
error before yielding any fragment; a data line whose payload fails to
parse is skipped without aborting the rest of the stream; and a decoded
DONE sentinel ends the yielded sequence exactly, discarding every later
line of its chunk and every later chunk. -/
theorem C9_thm :
    (∀ (parse : String → Option (Option String)) (resp : HttpResponse),
      resp.ok = false →
        makeOpenRouterStreamRequest parse resp =
          Except.error ("OpenRouter API error: " ++ Nat.repr resp.status ++ " - " ++
            resp.errorText)) ∧
    (∀ (parse : String → Option (Option String)) (line : String) (rest : List String),
      strStartsWith line "data: " = true → ¬strDrop line 6 = "[DONE]" →
      parse (strDrop line 6) = none →
        processLines parse (line :: rest) = processLines parse rest) ∧
    (∀ (parse : String → Option (Option String)) (pre post : List String),
      (∀ l ∈ pre, ¬isDoneLine l) →
        processLines parse (pre ++ "data: [DONE]" :: post) =
          ((processLines parse pre).1, true)) ∧
    (∀ (parse : String → Option (Option String)) (c : String) (rest : List String)
      (buffer : String) (pre post : List String),
      (strSplitNl (buffer ++ c)).dropLast = pre ++ "data: [DONE]" :: post →
      (∀ l ∈ pre, ¬isDoneLine l) →
        streamLoop parse (c :: rest) buffer = (processLines parse pre).1) := by
  refine ⟨?_, ?_, ?_, ?_⟩
  · intro parse resp h
    simp [makeOpenRouterStreamRequest, h]
  · intro parse line rest hsw hne hparse
    simp only [processLines, hsw, if_true, if_neg hne, hparse]
  · exact fun parse pre post hno => processLines_done parse pre post hno
  · intro parse c rest buffer pre post hsplit hno
    rw [streamLoop, hsplit, processLines_done parse pre post hno]
    simp

/-- C9 witness: the three failure and termination behaviors exercised on
concrete responses and line sequences. -/
theorem C9_wit :
    makeOpenRouterStreamRequest (fun _ => none)
        { ok := false, status := 500, errorText := "boom", body := none } =
      Except.error ("OpenRouter API error: " ++ Nat.repr 500 ++ " - " ++ "boom") ∧
    processLines (fun _ => none) ["data: x", "data: y"] =
      processLines (fun _ => none) ["data: y"] ∧
    processLines (fun _ => none) (["hello"] ++ "data: [DONE]" :: ["data: z"]) =
      ((processLines (fun _ => none) ["hello"]).1, true) ∧
    streamLoop (fun _ => none) ["data: a\ndata: [DONE]\ntail", "more"] "" =
      (processLines (fun _ => none) ["data: a"]).1 :=
  ⟨C9_thm.1 (fun _ => none) { ok := false, status := 500, errorText := "boom", body := none }
      rfl,
   C9_thm.2.1 (fun _ => none) "data: x" ["data: y"] (by decide) (by decide) rfl,
   C9_thm.2.2.1 (fun _ => none) ["hello"] ["data: z"] (by decide),
   C9_thm.2.2.2 (fun _ => none) "data: a\ndata: [DONE]\ntail" ["more"] "" ["data: a"] []
      (by decide) (by decide)⟩

/-! ### Content card events and the card fold -/

/-- Typed stream events, from openRouterService CardStreamChunk. -/
inductive CardStreamChunk where
  | title (value : String)
  | content (value : String)
  | separator
deriving DecidableEq, Repr

/-- The chunk loop of generateContentCardsStream: the first transport
fragment triggers one empty title event, every fragment is forwarded
unchanged as a content event, and no separator is ever emitted. -/
def genEventsAux : Bool → List String → List CardStreamChunk
  | _, [] => []
  | true, f :: rest => CardStreamChunk.title "" :: CardStreamChunk.content f ::
      genEventsAux false rest
  | false, f :: rest => CardStreamChunk.content f :: genEventsAux false rest

/-- Event sequence generateContentCardsStream delivers to onChunk for a
successful transport run yielding the given fragments. -/
def generateContentEvents (frags : List String) : List CardStreamChunk :=
  genEventsAux true frags

/-- One step of the handleChunk card fold in the generation effect of
App.tsx: ensure one empty card exists, then set the title of the last
card, append to its content, or open a fresh card on a separator. -/
def applyChunk (cards : List CardData) (c : CardStreamChunk) : List CardData :=
  let cards' := if cards.isEmpty then [{ title := "", content := "" }] else cards
  let currentCard := cards'.getLast?.getD { title := "", content := "" }
  match c with
  | CardStreamChunk.title v => cards'.dropLast ++ [{ currentCard with title := v }]
  | CardStreamChunk.content v =>
    cards'.dropLast ++ [{ currentCard with content := currentCard.content ++ v }]
  | CardStreamChunk.separator => cards' ++ [{ title := "", content := "" }]

/-- Folding a whole event sequence into the cards view state. -/
def foldCards (cards : List CardData) (events : List CardStreamChunk) : List CardData :=
  events.foldl applyChunk cards

theorem foldCards_cons (cards : List CardData) (e : CardStreamChunk)
    (es : List CardStreamChunk) :
    foldCards cards (e :: es) = foldCards (applyChunk cards e) es := rfl

theorem genEventsAux_false :
    ∀ rest : List String, genEventsAux false rest = rest.map CardStreamChunk.content := by
  intro rest
  induction rest with
  | nil => rfl
  | cons f t ih => rw [genEventsAux, ih, List.map_cons]

theorem foldCards_contents : ∀ (fs : List String) (s : String),
    ∃ c, foldCards [{ title := "", content := s }] (fs.map CardStreamChunk.content) = [c] ∧
      c.title = "" := by
  intro fs
  induction fs with
  | nil =>
    intro s
    exact ⟨{ title := "", content := s }, rfl, rfl⟩
  | cons f rest ih =>
    intro s
    have hstep : applyChunk [{ title := "", content := s }] (CardStreamChunk.content f) =
        [{ title := "", content := s ++ f }] := rfl
    obtain ⟨c, hc, ht⟩ := ih (s ++ f)
    exact ⟨c, by rw [List.map_cons, foldCards_cons, hstep]; exact hc, ht⟩

/-- C10 (amended): a successful content generation emits no separator; a
run with at least one transport fragment emits exactly one empty title
event followed exclusively by content events, and folding its event
sequence from the reset cards state yields exactly one card whose title is
the empty string; a run with no fragments emits no events and the fold
yields no card. -/
theorem C10_thm (frags : List String) :
    CardStreamChunk.separator ∉ generateContentEvents frags ∧
    (frags ≠ [] →
      generateContentEvents frags =
        CardStreamChunk.title "" :: frags.map CardStreamChunk.content ∧
      ∃ c, foldCards [] (generateContentEvents frags) = [c] ∧ c.title = "") := by
  constructor
  · cases frags with
    | nil => simp [generateContentEvents, genEventsAux]
    | cons f rest =>
      show CardStreamChunk.separator ∉
        genEventsAux true (f :: rest)
      rw [genEventsAux, genEventsAux_false]
      intro hmem
      rcases List.mem_cons.1 hmem with h | hmem
      · cases h
      rcases List.mem_cons.1 hmem with h | hmem
      · cases h
      rw [List.mem_map] at hmem
      obtain ⟨a, -, ha⟩ := hmem
      cases ha
  · intro hne
    cases frags with
    | nil => exact absurd rfl hne
    | cons f rest =>
      have hev : generateContentEvents (f :: rest) =
          CardStreamChunk.title "" :: (f :: rest).map CardStreamChunk.content := by
        show genEventsAux true (f :: rest) = _
        rw [genEventsAux, genEventsAux_false, List.map_cons]
      refine ⟨hev, ?_⟩
      rw [hev, foldCards_cons]
      have h0 : applyChunk [] (CardStreamChunk.title "") =
          [{ title := "", content := "" }] := rfl
      rw [h0]
      exact foldCards_contents (f :: rest) ""

/-- C10 counterexample: a successful run with an empty fragment stream
emits no events, and the fold then produces zero cards rather than exactly
one. -/
theorem C10_cex :
    generateContentEvents [] = [] ∧
    foldCards [] (generateContentEvents []) = [] ∧
    (foldCards [] (generateContentEvents [])).length ≠ 1 :=
  ⟨rfl, rfl, by decide⟩

/-- C10 witness: the amended event and fold shape at one fragment. -/
theorem C10_wit :
    generateContentEvents ["x"] =
      CardStreamChunk.title "" :: (["x"] : List String).map CardStreamChunk.content ∧
    ∃ c, foldCards [] (generateContentEvents ["x"]) = [c] ∧ c.title = "" :=
  (C10_thm ["x"]).2 (by decide)

/-! ### The generation orchestrator -/

/-- View state of App.tsx mutated by the generation flows.  The running
word counters are omitted: no claim refers to them. -/
structure ViewState where
  cards : List CardData
  asciiArt : Option AsciiArtData
  isLoading : Bool
  error : Option String
  generationTime : Option Nat
deriving DecidableEq, Repr

/-- One generation epoch: one run of the generation effect in App.tsx,
with its captured cancellation flag, its private ascii buffer, and the
topic it generates for. -/
structure GenEpoch where
  isCancelled : Bool
  asciiBuffer : String
  topic : String
deriving DecidableEq, Repr

/-- Whole-app state seen by the orchestrator. -/
structure OrchState where
  view : ViewState
  epochs : List GenEpoch
  tree : TopicHistoryState
deriving DecidableEq, Repr

/-- Orchestrator events: a topic switch (user search, word click or random
pick followed by the effect re-run), the asynchronous deliveries of the two
generation flows tagged with the index of the epoch whose callbacks receive
them, the cache-commit effect, and the user-initiated modify commit. -/
inductive OEvent where
  | switchTopic (topic : String) (parentId : Option String) (now : Nat)
  | asciiChunk (epoch : Nat) (chunk : String)
  | asciiDone (epoch : Nat)
  | asciiFail (epoch : Nat)
  | contentChunk (epoch : Nat) (c : CardStreamChunk)
  | contentFail (epoch : Nat) (msg : String)
  | contentDone (epoch : Nat) (elapsed : Nat)
  | commitCheck
  | modifyCommit
deriving DecidableEq, Repr

/-- The cancellation flag of an epoch; an index naming no epoch counts as
cancelled, since no callback closure exists for it. -/
def epochCancelled (s : OrchState) (e : Nat) : Bool :=
  match s.epochs.get? e with
  | some g => g.isCancelled
  | none => true

/-- The effect cleanup that runs when the generation effect re-fires: it
sets the cancellation flag captured by the most recent run. -/
def cancelLast : List GenEpoch → List GenEpoch
  | [] => []
  | [g] => [{ g with isCancelled := true }]
  | g :: rest => g :: cancelLast rest

/-- One orchestrator step, mirroring App.tsx: a topic switch adds the new
node to the tree, cancels the in-flight epoch, appends a fresh epoch and
resets the view; every fragment or completion handler first reads its
epoch flag and does nothing when it is set; the commit effect writes the
finished view into the cache of the current node only while that cache is
still empty (and drops a zero generation time, as the source's
generationTime-or-undefined does); the modify commit replaces the cached
cards of the current node keeping its cached art and generation time. -/
def stepOrch (s : OrchState) : OEvent → OrchState
  | OEvent.switchTopic topic parentId now =>
    { view := { cards := [], asciiArt := none, isLoading := true, error := none,
                generationTime := none },
      epochs := cancelLast s.epochs ++
        [{ isCancelled := false, asciiBuffer := "", topic := topic }],
      tree := (addTopic s.tree topic parentId now).1 }
  | OEvent.asciiChunk e chunk =>
    if epochCancelled s e then s
    else
      match s.epochs.get? e with
      | none => s
      | some g =>
        { s with
          epochs := s.epochs.set e { g with asciiBuffer := g.asciiBuffer ++ chunk },
          view := { s.view with asciiArt := some { art := g.asciiBuffer ++ chunk } } }
  | OEvent.asciiDone e =>
    if epochCancelled s e then s
    else
      match s.epochs.get? e with
      | none => s
      | some g =>
        { s with view := { s.view with asciiArt := some { art := g.asciiBuffer } } }
  | OEvent.asciiFail e =>
    if epochCancelled s e then s
    else
      match s.epochs.get? e with
      | none => s
      | some g =>
        { s with view := { s.view with asciiArt := some (createFallbackArt g.topic) } }
  | OEvent.contentChunk e c =>
    if epochCancelled s e then s
    else { s with view := { s.view with cards := applyChunk s.view.cards c } }
  | OEvent.contentFail e msg =>
    if epochCancelled s e then s
    else { s with view := { s.view with error := some msg, cards := [] } }
  | OEvent.contentDone e elapsed =>
    if epochCancelled s e then s
    else
      { s with view := { s.view with generationTime := some elapsed, isLoading := false } }
  | OEvent.commitCheck =>
    match s.tree.currentNodeId with
    | none => s
    | some k =>
      match lookupNode s.tree.nodes k with
      | none => s
      | some n =>
        if s.view.cards ≠ [] ∧ s.view.asciiArt.isSome ∧ s.view.isLoading = false ∧
            n.cachedCards = none then
          { s with
            tree := updateNodeContent s.tree k
              { cards := some s.view.cards, asciiArt := s.view.asciiArt,
                generationTime :=
                  match s.view.generationTime with
                  | some t => if t = 0 then none else some t
                  | none => none } }
        else s
  | OEvent.modifyCommit =>
    match s.tree.currentNodeId with
    | none => s
    | some k =>
      match lookupNode s.tree.nodes k with
      | none => s
      | some n =>
        if s.view.cards ≠ [] then
          { s with
            tree := updateNodeContent s.tree k
              { cards := some s.view.cards, asciiArt := n.cachedAsciiArt,
                generationTime := n.generationTime } }
        else s

/-- Running a trace of orchestrator events. -/
def runOrch (s : OrchState) (evs : List OEvent) : OrchState := evs.foldl stepOrch s

/-- Events delivered to the callbacks of epoch e. -/
def epochEventOf (e : Nat) : OEvent → Bool
  | OEvent.asciiChunk e' _ => e' == e
  | OEvent.asciiDone e' => e' == e
  | OEvent.asciiFail e' => e' == e
  | OEvent.contentChunk e' _ => e' == e
  | OEvent.contentFail e' _ => e' == e
  | OEvent.contentDone e' _ => e' == e
  | _ => false

/-- Cache field of a node of the orchestrator tree. -/
def cacheCards (s : OrchState) (k : String) : Option (List CardData) :=
  match lookupNode s.tree.nodes k with
  | some n => n.cachedCards
  | none => none

/-- An event that neither makes node k current nor recreates its id. -/
def avoidsNode (k : String) : OEvent → Prop
  | OEvent.switchTopic topic _ now => mkNodeId topic now ≠ k
  | _ => True

theorem get?_append_lt {α : Type} :
    ∀ (l1 l2 : List α) (i : Nat), i < l1.length → (l1 ++ l2).get? i = l1.get? i := by
  intro l1
  induction l1 with
  | nil =>
    intro l2 i h
    simp at h
  | cons a t ih =>
    intro l2 i h
    cases i with
    | zero => rfl
    | succ j => exact ih l2 j (by simpa using h)

theorem get?_set_ne_own {α : Type} :
    ∀ (l : List α) (i j : Nat) (v : α), i ≠ j → (l.set i v).get? j = l.get? j := by
  intro l
  induction l with
  | nil =>
    intro i j v _
    rfl
  | cons a t ih =>
    intro i j v h
    cases i with
    | zero =>
      cases j with
      | zero => exact absurd rfl h
      | succ j' => rfl
    | succ i' =>
      cases j with
      | zero => rfl
      | succ j' => exact ih i' j' v (fun he => h (by rw [he]))

theorem length_cancelLast : ∀ l : List GenEpoch, (cancelLast l).length = l.length := by
  intro l
  induction l with
  | nil => rfl
  | cons g rest ih =>
    cases rest with
    | nil => rfl
    | cons g2 rest2 =>
      show (g :: cancelLast (g2 :: rest2)).length = _
      simp only [List.length_cons]
      rw [ih]
      simp [List.length_cons]

theorem cancelLast_true {l : List GenEpoch} :
    ∀ {e : Nat} {g : GenEpoch}, l.get? e = some g → g.isCancelled = true →
      ∃ g', (cancelLast l).get? e = some g' ∧ g'.isCancelled = true := by
  induction l with
  | nil =>
    intro e g hg _
    simp at hg
  | cons g0 rest ih =>
    intro e g hg hc
    cases rest with
    | nil =>
      cases e with
      | zero =>
        exact ⟨{ g0 with isCancelled := true }, rfl, rfl⟩
      | succ e' => simp at hg
    | cons g2 rest2 =>
      cases e with
      | zero =>
        simp at hg
        refine ⟨g0, rfl, ?_⟩
        rw [hg]
        exact hc
      | succ e' =>
        have hg' : (g2 :: rest2).get? e' = some g := hg
        obtain ⟨g', h1, h2⟩ := ih hg' hc
        exact ⟨g', h1, h2⟩

theorem cancelLast_last {l : List GenEpoch} (h : l ≠ []) :
    ∃ g, (cancelLast l).get? (l.length - 1) = some g ∧ g.isCancelled = true := by
  induction l with
  | nil => exact absurd rfl h
  | cons g0 rest ih =>
    cases rest with
    | nil => exact ⟨{ g0 with isCancelled := true }, rfl, rfl⟩
    | cons g2 rest2 =>
      obtain ⟨g, h1, h2⟩ := ih (by simp)
      refine ⟨g, ?_, h2⟩
      show (g0 :: cancelLast (g2 :: rest2)).get? ((g0 :: g2 :: rest2).length - 1) = some g
      have hlen : (g0 :: g2 :: rest2).length - 1 = ((g2 :: rest2).length - 1) + 1 := by
        simp only [List.length_cons]
        omega
      rw [hlen]
      exact h1

theorem stepOrch_cancelled_noop {s : OrchState} {e : Nat} (hc : epochCancelled s e = true)
    {ev : OEvent} (hev : epochEventOf e ev = true) : stepOrch s ev = s := by
  cases ev with
  | switchTopic t p n => simp [epochEventOf] at hev
  | commitCheck => simp [epochEventOf] at hev
  | modifyCommit => simp [epochEventOf] at hev
  | asciiChunk e' c =>
    have he : e' = e := by simpa [epochEventOf] using hev
    subst he
    simp [stepOrch, hc]
  | asciiDone e' =>
    have he : e' = e := by simpa [epochEventOf] using hev
    subst he
    simp [stepOrch, hc]
  | asciiFail e' =>
    have he : e' = e := by simpa [epochEventOf] using hev
    subst he
    simp [stepOrch, hc]
  | contentChunk e' c =>
    have he : e' = e := by simpa [epochEventOf] using hev
    subst he
    simp [stepOrch, hc]
  | contentFail e' m =>
    have he : e' = e := by simpa [epochEventOf] using hev
    subst he
    simp [stepOrch, hc]
  | contentDone e' t =>
    have he : e' = e := by simpa [epochEventOf] using hev
    subst he
    simp [stepOrch, hc]

theorem stepOrch_epochs_mono (s : OrchState) (ev : OEvent) :
    s.epochs.length ≤ (stepOrch s ev).epochs.length := by
  cases ev with
  | switchTopic t p n =>
    show s.epochs.length ≤ (cancelLast s.epochs ++ [_]).length
    rw [List.length_append, length_cancelLast]
    omega
  | asciiChunk e c =>
    by_cases hc : epochCancelled s e = true
    · simp [stepOrch, hc]
    · simp only [stepOrch, if_neg hc]
      cases hg : s.epochs.get? e with
      | none => exact Nat.le_refl _
      | some g =>
        show s.epochs.length ≤ (s.epochs.set e _).length
        rw [List.length_set]
  | asciiDone e =>
    by_cases hc : epochCancelled s e = true
    · simp [stepOrch, hc]
    · simp only [stepOrch, if_neg hc]
      cases hg : s.epochs.get? e with
      | none => exact Nat.le_refl _
      | some g => exact Nat.le_refl _
  | asciiFail e =>
    by_cases hc : epochCancelled s e = true
    · simp [stepOrch, hc]
    · simp only [stepOrch, if_neg hc]
      cases hg : s.epochs.get? e with
      | none => exact Nat.le_refl _
      | some g => exact Nat.le_refl _
  | contentChunk e c =>
    by_cases hc : epochCancelled s e = true
    · simp [stepOrch, hc]
    · simp [stepOrch, hc]
  | contentFail e m =>
    by_cases hc : epochCancelled s e = true
    · simp [stepOrch, hc]
    · simp [stepOrch, hc]
  | contentDone e t =>
    by_cases hc : epochCancelled s e = true
    · simp [stepOrch, hc]
    · simp [stepOrch, hc]
  | commitCheck =>
    simp only [stepOrch]
    split
    · exact Nat.le_refl _
    · split
      · exact Nat.le_refl _
      · split
        · exact Nat.le_refl _
        · exact Nat.le_refl _
  | modifyCommit =>
    simp only [stepOrch]
    split
    · exact Nat.le_refl _
    · split
      · exact Nat.le_refl _
      · split
        · exact Nat.le_refl _
        · exact Nat.le_refl _

theorem stepOrch_cancelled_mono {s : OrchState} {e : Nat} (hlen : e < s.epochs.length)
    (hc : epochCancelled s e = true) (ev : OEvent) :
    epochCancelled (stepOrch s ev) e = true := by
  cases ev with
  | switchTopic t p n =>
    cases hg : s.epochs.get? e with
    | none =>
      have := List.get?_eq_none.1 hg
      omega
    | some g =>
      have hgc : g.isCancelled = true := by
        rw [epochCancelled, hg] at hc
        exact hc
      obtain ⟨g', h1, h2⟩ := cancelLast_true hg hgc
      show epochCancelled ⟨_, cancelLast s.epochs ++ [_], _⟩ e = true
      rw [epochCancelled]
      have hel : e < (cancelLast s.epochs).length := by
        rw [length_cancelLast]
        exact hlen
      show (match (cancelLast s.epochs ++ [_]).get? e with
        | some g => g.isCancelled | none => true) = true
      rw [get?_append_lt _ _ _ hel, h1]
      exact h2
  | asciiChunk e' c =>
    by_cases hce : epochCancelled s e' = true
    · simp only [stepOrch, if_pos hce]
      exact hc
    · have hne : e' ≠ e := fun he => hce (he ▸ hc)
      cases hg : s.epochs.get? e' with
      | none =>
        simp only [stepOrch, if_neg hce, hg]
        exact hc
      | some g =>
        simp only [stepOrch, if_neg hce, hg]
        rw [epochCancelled]
        show (match (s.epochs.set e' _).get? e with
          | some g => g.isCancelled | none => true) = true
        rw [get?_set_ne_own _ _ _ _ hne]
        exact hc
  | asciiDone e' =>
    by_cases hce : epochCancelled s e' = true
    · simp only [stepOrch, if_pos hce]
      exact hc
    · cases hg : s.epochs.get? e' with
      | none =>
        simp only [stepOrch, if_neg hce, hg]
        exact hc
      | some g =>
        simp only [stepOrch, if_neg hce, hg]
        exact hc
  | asciiFail e' =>
    by_cases hce : epochCancelled s e' = true
    · simp only [stepOrch, if_pos hce]
      exact hc
    · cases hg : s.epochs.get? e' with
      | none =>
        simp only [stepOrch, if_neg hce, hg]
        exact hc
      | some g =>
        simp only [stepOrch, if_neg hce, hg]
        exact hc
  | contentChunk e' c =>
    by_cases hce : epochCancelled s e' = true
    · simp only [stepOrch, if_pos hce]
      exact hc
    · simp only [stepOrch, if_neg hce]
      exact hc
  | contentFail e' m =>
    by_cases hce : epochCancelled s e' = true
    · simp only [stepOrch, if_pos hce]
      exact hc
    · simp only [stepOrch, if_neg hce]
      exact hc
  | contentDone e' t =>
    by_cases hce : epochCancelled s e' = true
    · simp only [stepOrch, if_pos hce]
      exact hc
    · simp only [stepOrch, if_neg hce]
      exact hc
  | commitCheck =>
    simp only [stepOrch]
    split
    · exact hc
    · split
      · exact hc
      · split
        · exact hc
        · exact hc
  | modifyCommit =>
    simp only [stepOrch]
    split
    · exact hc
    · split
      · exact hc
      · split
        · exact hc
        · exact hc

theorem runOrch_filter_cancelled :
    ∀ (evs : List OEvent) (s : OrchState) (e : Nat), e < s.epochs.length →
      epochCancelled s e = true →
      runOrch s evs = runOrch s (evs.filter fun ev => !epochEventOf e ev) := by
  intro evs
  induction evs with
  | nil =>
    intro s e _ _
    rfl
  | cons ev rest ih =>
    intro s e h1 h2
    cases hev : epochEventOf e ev with
    | true =>
      have hstep : stepOrch s ev = s := stepOrch_cancelled_noop h2 hev
      have hfil : (ev :: rest).filter (fun x => !epochEventOf e x) =
          rest.filter (fun x => !epochEventOf e x) := by
        simp [List.filter, hev]
      rw [hfil]
      show List.foldl stepOrch (stepOrch s ev) rest = _
      rw [hstep]
      exact ih s e h1 h2
    | false =>
      have hfil : (ev :: rest).filter (fun x => !epochEventOf e x) =
          ev :: rest.filter (fun x => !epochEventOf e x) := by
        simp [List.filter, hev]
      rw [hfil]
      show List.foldl stepOrch (stepOrch s ev) rest =
        List.foldl stepOrch (stepOrch s ev) (rest.filter fun x => !epochEventOf e x)
      exact ih (stepOrch s ev) e (lt_of_lt_of_le h1 (stepOrch_epochs_mono s ev))
        (stepOrch_cancelled_mono h1 h2 ev)

/-- Cache field of a node of a navigation tree. -/
def treeCacheCards (t : TopicHistoryState) (k : String) : Option (List CardData) :=
  match lookupNode t.nodes k with
  | some n => n.cachedCards
  | none => none

theorem updateNodeContent_currentNodeId (t : TopicHistoryState) (k : String)
    (c : NodeContent) : (updateNodeContent t k c).currentNodeId = t.currentNodeId := by
  cases hl : lookupNode t.nodes k with
  | none => rw [updateNodeContent, hl]
  | some n => rw [updateNodeContent, hl]

theorem updateNodeContent_lookup_ne {t : TopicHistoryState} {k q : String}
    (h : q ≠ k) (c : NodeContent) :
    lookupNode (updateNodeContent t k c).nodes q = lookupNode t.nodes q := by
  cases hl : lookupNode t.nodes k with
  | none => rw [updateNodeContent, hl]
  | some n =>
    rw [updateNodeContent, hl]
    exact lookupNode_setNode_ne t.nodes h _

theorem addTopic_cache_none {t : TopicHistoryState} {k : String}
    (h : treeCacheCards t k = none) (topic : String) (parentId : Option String)
    (now : Nat) : treeCacheCards (addTopic t topic parentId now).1 k = none := by
  have hstep1 : (match lookupNode (setNode t.nodes (mkNodeId topic now)
      (newTopicNode topic parentId now)) k with
      | some n => n.cachedCards
      | none => none) = none := by
    by_cases hk : k = mkNodeId topic now
    · rw [hk, lookupNode_setNode_self]
      rfl
    · rw [lookupNode_setNode_ne _ hk]
      exact h
  cases parentId with
  | none => exact hstep1
  | some p =>
    by_cases hp : p = ""
    · show (match lookupNode (if p = "" then _ else _) k with
        | some n => n.cachedCards
        | none => none) = none
      rw [if_pos hp]
      exact hstep1
    · show (match lookupNode (if p = "" then _ else _) k with
        | some n => n.cachedCards
        | none => none) = none
      rw [if_neg hp]
      cases hlp : lookupNode (setNode t.nodes (mkNodeId topic now)
          (newTopicNode topic (some p) now)) p with
      | none => exact hstep1
      | some pn =>
        by_cases hkp : k = p
        · show (match lookupNode (setNode _ p _) k with
            | some n => n.cachedCards
            | none => none) = none
          rw [hkp, lookupNode_setNode_self]
          show pn.cachedCards = none
          rw [hkp] at hstep1
          rw [hlp] at hstep1
          exact hstep1
        · show (match lookupNode (setNode _ p _) k with
            | some n => n.cachedCards
            | none => none) = none
          rw [lookupNode_setNode_ne _ hkp]
          exact hstep1

theorem stepOrch_cache_avoid {s : OrchState} {k : String} (ev : OEvent)
    (hcur : s.tree.currentNodeId ≠ some k) (hcache : cacheCards s k = none)
    (hav : avoidsNode k ev) :
    (stepOrch s ev).tree.currentNodeId ≠ some k ∧ cacheCards (stepOrch s ev) k = none := by
  cases ev with
  | switchTopic t p now =>
    constructor
    · show (addTopic s.tree t p now).1.currentNodeId ≠ some k
      have hcn : (addTopic s.tree t p now).1.currentNodeId = some (mkNodeId t now) := by
        cases p <;> rfl
      rw [hcn]
      intro he
      injection he with he2
      exact hav he2
    · show treeCacheCards (addTopic s.tree t p now).1 k = none
      exact addTopic_cache_none hcache t p now
  | asciiChunk e c =>
    by_cases hce : epochCancelled s e = true
    · simp only [stepOrch, if_pos hce]
      exact ⟨hcur, hcache⟩
    · simp only [stepOrch, if_neg hce]
      cases hg : s.epochs.get? e with
      | none => exact ⟨hcur, hcache⟩
      | some g => exact ⟨hcur, hcache⟩
  | asciiDone e =>
    by_cases hce : epochCancelled s e = true
    · simp only [stepOrch, if_pos hce]
      exact ⟨hcur, hcache⟩
    · simp only [stepOrch, if_neg hce]
      cases hg : s.epochs.get? e with
      | none => exact ⟨hcur, hcache⟩
      | some g => exact ⟨hcur, hcache⟩
  | asciiFail e =>
    by_cases hce : epochCancelled s e = true
    · simp only [stepOrch, if_pos hce]
      exact ⟨hcur, hcache⟩
    · simp only [stepOrch, if_neg hce]
      cases hg : s.epochs.get? e with
      | none => exact ⟨hcur, hcache⟩
      | some g => exact ⟨hcur, hcache⟩
  | contentChunk e c =>
    by_cases hce : epochCancelled s e = true
    · simp only [stepOrch, if_pos hce]
      exact ⟨hcur, hcache⟩
    · simp only [stepOrch, if_neg hce]
      exact ⟨hcur, hcache⟩
  | contentFail e m =>
    by_cases hce : epochCancelled s e = true
    · simp only [stepOrch, if_pos hce]
      exact ⟨hcur, hcache⟩
    · simp only [stepOrch, if_neg hce]
      exact ⟨hcur, hcache⟩
  | contentDone e t =>
    by_cases hce : epochCancelled s e = true
    · simp only [stepOrch, if_pos hce]
      exact ⟨hcur, hcache⟩
    · simp only [stepOrch, if_neg hce]
      exact ⟨hcur, hcache⟩
  | commitCheck =>
    cases hc0 : s.tree.currentNodeId with
    | none =>
      simp only [stepOrch, hc0]
      rw [hc0] at hcur
      exact ⟨hcur, hcache⟩
    | some k0 =>
      have hk0 : k ≠ k0 := by
        intro he
        rw [← he] at hc0
        exact hcur hc0
      cases hl0 : lookupNode s.tree.nodes k0 with
      | none =>
        simp only [stepOrch, hc0, hl0]
        rw [hc0] at hcur
        exact ⟨hcur, hcache⟩
      | some n =>
        by_cases hg : s.view.cards ≠ [] ∧ s.view.asciiArt.isSome ∧
            s.view.isLoading = false ∧ n.cachedCards = none
        · simp only [stepOrch, hc0, hl0, if_pos hg]
          constructor
          · show (updateNodeContent s.tree k0 _).currentNodeId ≠ some k
            rw [updateNodeContent_currentNodeId, hc0]
            intro he
            injection he with he2
            exact hk0 he2.symm
          · show (match lookupNode (updateNodeContent s.tree k0 _).nodes k with
              | some n => n.cachedCards
              | none => none) = none
            rw [updateNodeContent_lookup_ne hk0]
            exact hcache
        · simp only [stepOrch, hc0, hl0, if_neg hg]
          rw [hc0] at hcur
          exact ⟨hcur, hcache⟩
  | modifyCommit =>
    cases hc0 : s.tree.currentNodeId with
    | none =>
      simp only [stepOrch, hc0]
      rw [hc0] at hcur
      exact ⟨hcur, hcache⟩
    | some k0 =>
      have hk0 : k ≠ k0 := by
        intro he
        rw [← he] at hc0
        exact hcur hc0
      cases hl0 : lookupNode s.tree.nodes k0 with
      | none =>
        simp only [stepOrch, hc0, hl0]
        rw [hc0] at hcur
        exact ⟨hcur, hcache⟩
      | some n =>
        by_cases hg : s.view.cards ≠ []
        · simp only [stepOrch, hc0, hl0, if_pos hg]
          constructor
          · show (updateNodeContent s.tree k0 _).currentNodeId ≠ some k
            rw [updateNodeContent_currentNodeId, hc0]
            intro he
            injection he with he2
            exact hk0 he2.symm
          · show (match lookupNode (updateNodeContent s.tree k0 _).nodes k with
              | some n => n.cachedCards
              | none => none) = none
            rw [updateNodeContent_lookup_ne hk0]
            exact hcache
        · simp only [stepOrch, hc0, hl0, if_neg hg]
          rw [hc0] at hcur
          exact ⟨hcur, hcache⟩

theorem runOrch_cache_avoid :
    ∀ (evs : List OEvent) (s : OrchState) (k : String),
      s.tree.currentNodeId ≠ some k → cacheCards s k = none →
      (∀ ev ∈ evs, avoidsNode k ev) →
      (runOrch s evs).tree.currentNodeId ≠ some k ∧
        cacheCards (runOrch s evs) k = none := by
  intro evs
  induction evs with
  | nil =>
    intro s k h1 h2 _
    exact ⟨h1, h2⟩
  | cons ev rest ih =>
    intro s k h1 h2 h3
    obtain ⟨h1', h2'⟩ := stepOrch_cache_avoid ev h1 h2 (h3 ev (List.mem_cons_self _ _))
    exact ih (stepOrch s ev) k h1' h2' (fun e he => h3 e (List.mem_cons_of_mem _ he))

instance (k : String) (ev : OEvent) : Decidable (avoidsNode k ev) := by
  cases ev with
  | switchTopic t p n =>
    show Decidable (mkNodeId t n ≠ k)
    infer_instance
  | asciiChunk e c => exact isTrue trivial
  | asciiDone e => exact isTrue trivial
  | asciiFail e => exact isTrue trivial
  | contentChunk e c => exact isTrue trivial
  | contentFail e m => exact isTrue trivial
  | contentDone e t => exact isTrue trivial
  | commitCheck => exact isTrue trivial
  | modifyCommit => exact isTrue trivial

/-- C3: a topic switch while the latest epoch is in flight sets that epoch
cancellation flag; an event delivered to a cancelled epoch leaves the state
untouched, so any trace after the switch equals the same trace with every
event of the cancelled epoch removed (no stale fragment is ever applied to
the displayed view state); and along any trace whose events never make a
node current again and never regenerate its id, an unpopulated node cache
stays unpopulated, so the cancelled flow writes nothing into its node
cache. -/
theorem C3_thm :
    (∀ (s : OrchState) (topic : String) (parentId : Option String) (now : Nat),
      s.epochs ≠ [] →
        epochCancelled (stepOrch s (OEvent.switchTopic topic parentId now))
          (s.epochs.length - 1) = true) ∧
    (∀ (s : OrchState) (e : Nat) (ev : OEvent), epochCancelled s e = true →
      epochEventOf e ev = true → stepOrch s ev = s) ∧
    (∀ (s : OrchState) (e : Nat) (evs : List OEvent), e < s.epochs.length →
      epochCancelled s e = true →
        runOrch s evs = runOrch s (evs.filter fun ev => !epochEventOf e ev)) ∧
    (∀ (s : OrchState) (k : String) (evs : List OEvent),
      s.tree.currentNodeId ≠ some k → cacheCards s k = none →
      (∀ ev ∈ evs, avoidsNode k ev) → cacheCards (runOrch s evs) k = none) := by
  refine ⟨?_, ?_, ?_, ?_⟩
  · intro s topic parentId now hne
    obtain ⟨g, h1, h2⟩ := cancelLast_last hne
    have hel : s.epochs.length - 1 < (cancelLast s.epochs).length := by
      rw [length_cancelLast]
      cases hsep : s.epochs with
      | nil => exact absurd hsep hne
      | cons a t => simp [hsep]
    show (match (cancelLast s.epochs ++ [_]).get? (s.epochs.length - 1) with
      | some g => g.isCancelled
      | none => true) = true
    rw [get?_append_lt _ _ _ hel, h1]
    exact h2
  · intro s e ev h1 h2
    exact stepOrch_cancelled_noop h1 h2
  · intro s e evs h1 h2
    exact runOrch_filter_cancelled evs s e h1 h2
  · intro s k evs h1 h2 h3
    exact (runOrch_cache_avoid evs s k h1 h2 h3).2

/-- A concrete state with one in-flight epoch generating topic A. -/
def sampleEpochState : OrchState :=
  { view := { cards := [], asciiArt := none, isLoading := true, error := none,
              generationTime := none },
    epochs := [{ isCancelled := false, asciiBuffer := "", topic := "A" }],
    tree := (addTopic emptyHistory "A" none 0).1 }

/-- The sample state right after the user switches to topic B. -/
def sampleSwitched : OrchState :=
  stepOrch sampleEpochState (OEvent.switchTopic "B" none 1)

/-- C3 witness: the cancellation scenario on concrete states: the switch
cancels epoch 0, an epoch-0 fragment is then a no-op, a mixed trace equals
the trace with the epoch-0 events removed, and the node of the cancelled
epoch keeps an empty cache across a later commit attempt. -/
theorem C3_wit :
    epochCancelled sampleSwitched 0 = true ∧
    stepOrch sampleSwitched (OEvent.asciiChunk 0 "x") = sampleSwitched ∧
    runOrch sampleSwitched
        [OEvent.asciiChunk 0 "x", OEvent.contentChunk 1 (CardStreamChunk.content "y")] =
      runOrch sampleSwitched
        ([OEvent.asciiChunk 0 "x",
          OEvent.contentChunk 1 (CardStreamChunk.content "y")].filter
            fun ev => !epochEventOf 0 ev) ∧
    cacheCards (runOrch sampleSwitched [OEvent.commitCheck]) "A-0" = none :=
  ⟨C3_thm.1 sampleEpochState "B" none 1 (by decide),
   C3_thm.2.1 sampleSwitched 0 (OEvent.asciiChunk 0 "x") (by decide) (by decide),
   C3_thm.2.2.1 sampleSwitched 0
     [OEvent.asciiChunk 0 "x", OEvent.contentChunk 1 (CardStreamChunk.content "y")]
     (by decide) (by decide),
   C3_thm.2.2.2 sampleSwitched "A-0" [OEvent.commitCheck] (by decide) (by decide)
     (by decide)⟩

theorem updateNodeContent_lookup_self {t : TopicHistoryState} {k : String} {n : TopicNode}
    (h : lookupNode t.nodes k = some n) (c : NodeContent) :
    lookupNode (updateNodeContent t k c).nodes k =
      some { n with
        cachedCards := c.cards, cachedAsciiArt := c.asciiArt,
        generationTime := c.generationTime, totalInputWords := c.totalInputWords,
        totalOutputWords := c.totalOutputWords } := by
  rw [updateNodeContent, h]
  exact lookupNode_setNode_self _ _ _

theorem commitCheck_noop_of_cached {s : OrchState} {k : String} {n : TopicNode}
    {cs : List CardData} (hcur : s.tree.currentNodeId = some k)
    (hlook : lookupNode s.tree.nodes k = some n) (hcc : n.cachedCards = some cs) :
    stepOrch s OEvent.commitCheck = s := by
  have hng : ¬(s.view.cards ≠ [] ∧ s.view.asciiArt.isSome ∧ s.view.isLoading = false ∧
      n.cachedCards = none) := by
    intro hgg
    obtain ⟨-, -, -, h4⟩ := hgg
    rw [hcc] at h4
    exact Option.noConfusion h4
  simp only [stepOrch, hcur, hlook, if_neg hng]

/-- C4: the cache-commit effect refuses to write while the current node
cache is populated; running the commit effect twice equals running it once
for every state, so a completed generation commits at most once per node;
and the modify commit writes the current cards into the current node while
keeping its cached ascii art and its recorded generation time. -/
theorem C4_thm :
    (∀ (s : OrchState) (k : String) (n : TopicNode) (cs : List CardData),
      s.tree.currentNodeId = some k → lookupNode s.tree.nodes k = some n →
      n.cachedCards = some cs → stepOrch s OEvent.commitCheck = s) ∧
    (∀ s : OrchState,
      stepOrch (stepOrch s OEvent.commitCheck) OEvent.commitCheck =
        stepOrch s OEvent.commitCheck) ∧
    (∀ (s : OrchState) (k : String) (n : TopicNode),
      s.tree.currentNodeId = some k → lookupNode s.tree.nodes k = some n →
      ∃ n', lookupNode (stepOrch s OEvent.modifyCommit).tree.nodes k = some n' ∧
        n'.cachedAsciiArt = n.cachedAsciiArt ∧ n'.generationTime = n.generationTime ∧
        (s.view.cards ≠ [] → n'.cachedCards = some s.view.cards)) := by
  refine ⟨?_, ?_, ?_⟩
  · intro s k n cs hcur hlook hcc
    exact commitCheck_noop_of_cached hcur hlook hcc
  · intro s
    cases hc0 : s.tree.currentNodeId with
    | none =>
      have h1 : stepOrch s OEvent.commitCheck = s := by
        simp only [stepOrch, hc0]
      rw [h1, h1]
    | some k =>
      cases hl0 : lookupNode s.tree.nodes k with
      | none =>
        have h1 : stepOrch s OEvent.commitCheck = s := by
          simp only [stepOrch, hc0, hl0]
        rw [h1, h1]
      | some n =>
        by_cases hg : s.view.cards ≠ [] ∧ s.view.asciiArt.isSome ∧
            s.view.isLoading = false ∧ n.cachedCards = none
        · have h1 : stepOrch s OEvent.commitCheck =
              { s with
                tree := updateNodeContent s.tree k
                  { cards := some s.view.cards, asciiArt := s.view.asciiArt,
                    generationTime :=
                      (match s.view.generationTime with
                      | some t => if t = 0 then none else some t
                      | none => none) } } := by
            simp only [stepOrch, hc0, hl0, if_pos hg]
          have hcur2 : (updateNodeContent s.tree k
              { cards := some s.view.cards, asciiArt := s.view.asciiArt,
                generationTime :=
                  (match s.view.generationTime with
                  | some t => if t = 0 then none else some t
                  | none => none) }).currentNodeId = some k := by
            rw [updateNodeContent_currentNodeId, hc0]
          have hlook2 := updateNodeContent_lookup_self hl0
            { cards := some s.view.cards, asciiArt := s.view.asciiArt,
              generationTime :=
                (match s.view.generationTime with
                | some t => if t = 0 then none else some t
                | none => none) }
          rw [h1]
          exact commitCheck_noop_of_cached hcur2 hlook2 rfl
        · have h1 : stepOrch s OEvent.commitCheck = s := by
            simp only [stepOrch, hc0, hl0, if_neg hg]
          rw [h1, h1]
  · intro s k n hcur hlook
    by_cases hcards : s.view.cards ≠ []
    · have h1 : stepOrch s OEvent.modifyCommit =
          { s with
            tree := updateNodeContent s.tree k
              { cards := some s.view.cards, asciiArt := n.cachedAsciiArt,
                generationTime := n.generationTime } } := by
        simp only [stepOrch, hcur, hlook, if_pos hcards]
      rw [h1]
      refine ⟨{ n with
        cachedCards := some s.view.cards, cachedAsciiArt := n.cachedAsciiArt,
        generationTime := n.generationTime, totalInputWords := none,
        totalOutputWords := none }, ?_, rfl, rfl, fun _ => rfl⟩
      show lookupNode (updateNodeContent s.tree k _).nodes k = _
      exact updateNodeContent_lookup_self hlook _
    · have h1 : stepOrch s OEvent.modifyCommit = s := by
        simp only [stepOrch, hcur, hlook, if_neg hcards]
      rw [h1]
      exact ⟨n, hlook, rfl, rfl, fun hc => absurd hc hcards⟩

/-- A concrete state whose current node holds a populated cache. -/
def sampleCached : OrchState :=
  { view := { cards := [{ title := "t", content := "c" }],
              asciiArt := some { art := "x" }, isLoading := false, error := none,
              generationTime := some 5 },
    epochs := [],
    tree := updateNodeContent (addTopic emptyHistory "A" none 0).1 "A-0"
      { cards := some [{ title := "t0", content := "c0" }],
        asciiArt := some { art := "a0" }, generationTime := some 3 } }

/-- The cached node of the sample state. -/
def sampleCachedNode : TopicNode :=
  { id := "A-0", topic := "A", timestamp := 0, parentId := none, children := [],
    cachedCards := some [{ title := "t0", content := "c0" }],
    cachedAsciiArt := some { art := "a0" }, generationTime := some 3 }

/-- C4 witness: the commit refusal, the commit idempotence, and the modify
commit instantiated on the concrete cached state. -/
theorem C4_wit :
    stepOrch sampleCached OEvent.commitCheck = sampleCached ∧
    stepOrch (stepOrch sampleCached OEvent.commitCheck) OEvent.commitCheck =
      stepOrch sampleCached OEvent.commitCheck ∧
    ∃ n', lookupNode (stepOrch sampleCached OEvent.modifyCommit).tree.nodes "A-0" =
        some n' ∧
      n'.cachedAsciiArt = sampleCachedNode.cachedAsciiArt ∧
      n'.generationTime = sampleCachedNode.generationTime ∧
      (sampleCached.view.cards ≠ [] → n'.cachedCards = some sampleCached.view.cards) :=
  ⟨C4_thm.1 sampleCached "A-0" sampleCachedNode [{ title := "t0", content := "c0" }]
      (by decide) (by decide) (by decide),
   C4_thm.2.1 sampleCached,
   C4_thm.2.2 sampleCached "A-0" sampleCachedNode (by decide) (by decide)⟩
